import Mathlib

/-!
Verification development for the gotree tree library and its Booster/TBE
branch-support engine.

The Go source is shallowly embedded as follows.

Tree model (package `tree`, file `part_000`):
the Go graph is a pointer arena of `Node`s and `Edge`s, always traversed from
the current root while carrying the "came-from" node, so that each non-root
node has a unique parent edge.  We embed this rooted view directly: a node is
its name together with the ordered list of (parent-oriented) child edges and
child subtrees.  `Edge` carries branch length, support, p-value (Go `float64`
with an "unset" sentinel, embedded as rationals), the integer id, and the
optional bipartition bitset (Go `*bitset.BitSet`, embedded as `Option (List
Bool)`, `none` standing for a nil pointer).  Go node fields that no verified
claim reads (comments, depth, node id) are not carried.

Machine integers: the Booster matrices are Go `uint16`; they are embedded as
`Nat` kept below 2^16, with wrap-around addition and subtraction made explicit
(`add16`, `sub16`).  Array indexing by Go `int` ids is embedded as total
functions from `Int`.

Go mutation is embedded as explicit state passing; Go `error` returns are
`Except String`; a nil-pointer dereference (which panics in Go, there being no
error branch) is embedded as an `Option` result being `none`.
-/

/-- Sentinel for an unset branch length (`NIL_LENGTH`); modelled from the
spec: "branch length (float, sentinel unset)".  The constant itself is
declared outside the files under verification; the repository uses `-1`. -/
def NIL_LENGTH : ℚ := -1

/-- Sentinel for an unset branch support (`NIL_SUPPORT`). -/
def NIL_SUPPORT : ℚ := -1

/-- Sentinel for an unset p-value (`NIL_PVALUE`). -/
def NIL_PVALUE : ℚ := -1

/-- Sentinel for an unset edge or node id (`NIL_ID`). -/
def NIL_ID : Int := -1

/-- Embedding of the Go `Edge` struct: branch length, support value,
p-value, id and bipartition bitset.  A `none` bitset is a nil pointer. -/
structure GEdge where
  length : ℚ
  support : ℚ
  pvalue : ℚ
  eid : Int
  bitset : Option (List Bool)
deriving Repr, DecidableEq

/-- The fresh edge made by `Tree.NewEdge`: every attribute unset. -/
def NewEdgeE : GEdge :=
  { length := NIL_LENGTH, support := NIL_SUPPORT, pvalue := NIL_PVALUE
    eid := NIL_ID, bitset := none }

mutual
/-- Embedding of the Go `Node` graph as seen from the current root: a node
name together with the ordered child list (Go `neigh`/`br` minus the
came-from parent). -/
inductive GNode : Type where
  | node (name : String) (ch : GForest)
deriving Repr, DecidableEq

/-- Ordered list of (edge, child subtree) pairs below a node. -/
inductive GForest : Type where
  | nil
  | cons (e : GEdge) (t : GNode) (rest : GForest)
deriving Repr, DecidableEq
end

/-- Name of a node. -/
def GNode.name : GNode → String
  | .node nm _ => nm

/-- Child forest of a node. -/
def GNode.ch : GNode → GForest
  | .node _ f => f

/-- Number of children recorded in a forest. -/
def GForest.length : GForest → ℕ
  | .nil => 0
  | .cons _ _ rest => 1 + rest.length

/-- View of a forest as a list of (edge, subtree) pairs. -/
def GForest.toList : GForest → List (GEdge × GNode)
  | .nil => []
  | .cons e t rest => (e, t) :: rest.toList

/-- Rebuild a forest from a list of (edge, subtree) pairs. -/
def GForest.ofList : List (GEdge × GNode) → GForest
  | [] => .nil
  | (e, t) :: rest => .cons e t (GForest.ofList rest)

/-- Number of neighbors of a node (`Node.Nneigh`): its children plus the
came-from parent when there is one. -/
def nneigh (hasParent : Bool) (n : GNode) : ℕ :=
  n.ch.length + (if hasParent then 1 else 0)

/-- The Go tip test `len(n.neigh) == 1`. -/
def isTipNode (hasParent : Bool) (n : GNode) : Bool :=
  nneigh hasParent n == 1

/-- Embedding of the Go `Tree` struct: optional root pointer (nil on a fresh
tree) and the tip index map, embedded as an association list from tip name to
bitset ordinal. -/
structure GTree where
  root : Option GNode
  tipIndex : List (String × ℕ)
deriving Repr, DecidableEq

/-- `NewTree`: fresh tree with nil root and empty tip index. -/
def NewTree : GTree := { root := none, tipIndex := [] }

/-- `Tree.Rooted`: true when the root has 2 neighbors.  The Go code calls
`t.root.Nneigh()` without a nil check, so a rootless tree panics: `none`. -/
def Rooted (t : GTree) : Option Bool :=
  t.root.map (fun r => nneigh false r == 2)

mutual
/-- Pre-order edge list below a forest, with the subtree hanging from each
edge (Go `Tree.Edges` / `edgesRecur`: append each edge, then descend when the
right node is internal). -/
def edgesF : GForest → List (GEdge × GNode)
  | .nil => []
  | .cons e t rest => (e, t) :: (edgesSub t ++ edgesF rest)

/-- The recursive step of `edgesRecur`: a tip right node has no children to
descend into. -/
def edgesSub : GNode → List (GEdge × GNode)
  | .node _ f => edgesF f
end

/-- `Tree.Edges` on the tree level: panics (nil dereference) without a root. -/
def Edges (t : GTree) : Option (List GEdge) :=
  t.root.map (fun r => (edgesF r.ch).map Prod.fst)

mutual
/-- `Tree.nodesRecur`: pre-order node list (the came-from parent prevents
revisits; in the rooted view this is just the node followed by its subtrees). -/
def nodesN : GNode → List GNode
  | .node nm f => .node nm f :: nodesList f

/-- Node lists of the subtrees of a forest, concatenated. -/
def nodesList : GForest → List GNode
  | .nil => []
  | .cons _ t rest => nodesN t ++ nodesList rest
end

/-- `Tree.Nodes`: panics (nil dereference) without a root. -/
def NodesT (t : GTree) : Option (List GNode) :=
  t.root.map nodesN

mutual
/-- `Tree.tipsRecur`: collect the nodes whose neighbor count is 1. -/
def tipsN (hasParent : Bool) : GNode → List GNode
  | .node nm f =>
      (if isTipNode hasParent (.node nm f) then [GNode.node nm f] else []) ++ tipsList f

/-- Tip lists of the subtrees of a forest, concatenated. -/
def tipsList : GForest → List GNode
  | .nil => []
  | .cons _ t rest => tipsN true t ++ tipsList rest
end

/-- `Tree.Tips`: panics (nil dereference) without a root. -/
def TipsT (t : GTree) : Option (List GNode) :=
  t.root.map (tipsN false)

mutual
/-- `Tree.allTipNamesRecur`: a node with exactly one neighbor contributes its
name, any other node recurses into its children. -/
def allTipNamesN (hasParent : Bool) : GNode → List String
  | .node nm f =>
      if nneigh hasParent (.node nm f) == 1 then [nm] else allTipNamesList f

/-- Tip names of the subtrees of a forest, concatenated. -/
def allTipNamesList : GForest → List String
  | .nil => []
  | .cons _ t rest => allTipNamesN true t ++ allTipNamesList rest
end

/-- `Tree.AllTipNames` from the root. -/
def AllTipNames (root : GNode) : List String :=
  allTipNamesN false root

/-- Insert-or-overwrite into an association list, preserving the position of
an existing key (embedding of a Go map assignment). -/
def assocSet : List (String × ℕ) → String → ℕ → List (String × ℕ)
  | [], k, v => [(k, v)]
  | (k', v') :: rest, k, v =>
      if k' = k then (k', v) :: rest else (k', v') :: assocSet rest k v

/-- Lookup in the tip index (Go map read). -/
def assocFind : List (String × ℕ) → String → Option ℕ
  | [], _ => none
  | (k', v') :: rest, k => if k' = k then some v' else assocFind rest k

/-- Lexicographic order on character lists (the byte order Go's
`sort.Strings` uses). -/
def charListLe : List Char → List Char → Bool
  | [], _ => true
  | _ :: _, [] => false
  | a :: as, b :: bs =>
      if a.toNat < b.toNat then true
      else if b.toNat < a.toNat then false
      else charListLe as bs

/-- Lexicographic order on strings. -/
def strLe (a b : String) : Bool := charListLe a.data b.data

/-- `Tree.SortedTips`: all tip names, sorted lexicographically. -/
def SortedTips (root : GNode) : List String :=
  (AllTipNames root).insertionSort (fun a b => strLe a b)

/-- `Tree.UpdateTipIndex`: clear the index, then `tipIndex[name] = i` for each
sorted name with its sort position (a duplicated name keeps its last
position, as with a Go map). -/
def UpdateTipIndexL (root : GNode) : List (String × ℕ) :=
  (SortedTips root).enum.foldl (fun m p => assocSet m p.2 p.1) []

/-- `Tree.TipIndex`: lookup with the two Go error cases (empty index, missing
name). -/
def TipIndexLookup (idx : List (String × ℕ)) (name : String) : Except String ℕ :=
  if idx.length = 0 then
    .error "No tips in the index, tip name index is not initialized"
  else
    match assocFind idx name with
    | none => .error ("No tip named " ++ name ++ " in the index")
    | some v => .ok v

/-- `Tree.CompareTipIndexes`: same nonzero size and the same key set,
otherwise an error. -/
def CompareTipIndexes (i1 i2 : List (String × ℕ)) : Except String Unit :=
  if i1.length = 0 || i2.length = 0 || i1.length != i2.length then
    .error "Tip name index is not initialized or trees do not have the same number of tips"
  else if i1.any (fun p => (assocFind i2 p.1).isNone) then
    .error "Trees do not have the same tip names"
  else if i2.any (fun p => (assocFind i1 p.1).isNone) then
    .error "Trees do not have the same tip names"
  else .ok ()

deriving instance DecidableEq for Except

example : CompareTipIndexes [("a", 0)] [("a", 0)] = .ok () := by decide
example : (CompareTipIndexes [("a", 0)] [("b", 0)]).isOk = false := by decide
example : nneigh false (.node "x" (.cons NewEdgeE (.node "a" .nil) .nil)) = 1 := by decide

/-- Number of set bits of a bitset (`BitSet.Count`). -/
def popcount (bs : List Bool) : ℕ := bs.count true

/-- Test one bit (`BitSet.Test`); out of range reads false. -/
def testBit (bs : List Bool) (i : ℕ) : Bool := bs.getD i false

/-- Set several bits (`BitSet.Set` repeated); `List.set` out of range is a
no-op, matching a fixed-size bit vector. -/
def setBits (bs : List Bool) (is : List ℕ) : List Bool :=
  is.foldl (fun b i => b.set i true) bs

mutual
/-- `Tree.clearBitSetsRecur` on a node: allocate a fresh zero bitset of the
current tip-count length on every descendant edge. -/
def clearBitSetsN (ntip : ℕ) : GNode → GNode
  | .node nm f => .node nm (clearBitSetsF ntip f)

/-- `Tree.clearBitSetsRecur` on a forest. -/
def clearBitSetsF (ntip : ℕ) : GForest → GForest
  | .nil => .nil
  | .cons e t rest =>
      .cons { e with bitset := some (List.replicate ntip false) }
        (clearBitSetsN ntip t) (clearBitSetsF ntip rest)
end

/-- `Tree.ClearBitSets`: error when the tip index is empty, otherwise
reallocate every bitset at the index size. -/
def ClearBitSetsT (idx : List (String × ℕ)) (root : GNode) : Except String GNode :=
  if idx.length = 0 then
    .error "No tips in the index, tip name index is not initialized"
  else .ok (clearBitSetsN idx.length root)

mutual
/-- `Tree.fillRightBitSet` for one edge and the subtree at its right node.
The Go code clears the edge's bitset in place and, at each tip below, sets
the tip's ordinal bit in every edge currently on the ancestor stack; in this
state-passing form every edge's bitset is rebuilt as the zeroed vector of its
former length with exactly the ordinals of the tips below it set, which is
the state the stack walk leaves behind on success (on an error the Go walk
stops with partially updated bitsets; here no tree is returned).  The
returned list carries the tip ordinals of the subtree, as delivered to the
enclosing stack. -/
def fillRightE (idx : List (String × ℕ)) (e : GEdge) : GNode →
    Except String (GEdge × GNode × List ℕ)
  | .node nm .nil =>
      match e.bitset with
      | none =>
          .error "BitSets has not been initialized with tree.clearBitSetsRecur(nil, nil, uint(len(tree.tipIndex)))"
      | some bs0 =>
          match TipIndexLookup idx nm with
          | .error s => .error s
          | .ok i =>
              .ok ({ e with bitset := some ((List.replicate bs0.length false).set i true) },
                .node nm .nil, [i])
  | .node nm (.cons e1 t1 r1) =>
      match e.bitset with
      | none =>
          .error "BitSets has not been initialized with tree.clearBitSetsRecur(nil, nil, uint(len(tree.tipIndex)))"
      | some bs0 =>
          match fillRightF idx (.cons e1 t1 r1) with
          | .error s => .error s
          | .ok (f2, bits) =>
              .ok ({ e with bitset := some (setBits (List.replicate bs0.length false) bits) },
                .node nm f2, bits)

/-- `Tree.fillRightBitSet` over the children of an internal right node. -/
def fillRightF (idx : List (String × ℕ)) : GForest →
    Except String (GForest × List ℕ)
  | .nil => .ok (.nil, [])
  | .cons e t rest =>
      match fillRightE idx e t with
      | .error s => .error s
      | .ok (e2, t2, bits1) =>
          match fillRightF idx rest with
          | .error s => .error s
          | .ok (rest2, bits2) => .ok (.cons e2 t2 rest2, bits1 ++ bits2)
end

/-- `Tree.UpdateBitSet`: one post-order pass per root-incident subtree. -/
def UpdateBitSetN (idx : List (String × ℕ)) : GNode → Except String GNode
  | .node nm f =>
      match fillRightF idx f with
      | .error s => .error s
      | .ok (f2, _) => .ok (.node nm f2)

/-- `Tree.ReinitIndexes` on a rooted tree: rebuild the tip index, reallocate
bitsets (`ClearBitSets`, error ignored), refill them (`UpdateBitSet`, error
ignored), and recompute node depths.  Node depth fields are not carried by
the embedding (no verified claim reads them), so `ComputeDepths` has no
effect here. -/
def ReinitIndexesN (root : GNode) : List (String × ℕ) × GNode :=
  let idx := UpdateTipIndexL root
  let root1 := if idx.length = 0 then root else clearBitSetsN idx.length root
  let root2 := match UpdateBitSetN idx root1 with
    | .ok r => r
    | .error _ => root1
  (idx, root2)

/-- Embedding of the `BoosterSupporter` struct (the mutex only guards the
counter and is not carried). -/
structure BoosterSupporter where
  currentTree : ℕ
  stop : Bool
  silent : Bool
  computeMovedSpecies : Bool
  computeTransferPerBranches : Bool
  computeHighTransferPerBranches : Bool
  movedSpeciesCutoff : ℚ
  normalizeByExpected : Bool
deriving Repr, DecidableEq

/-- `NewBoosterSupporter`: the moved-species cutoff is clamped by two
successive tests before the struct is built. -/
def NewBoosterSupporter (silent computeMovedSpecies computeTransferPerBranches
    computeHighTransferPerBranches : Bool) (movedSpeciesCutoff : ℚ)
    (normalizeByExpected : Bool) : BoosterSupporter :=
  let c1 := if movedSpeciesCutoff < 0 then (1 : ℚ) else movedSpeciesCutoff
  let c2 := if c1 > 1 then (1 : ℚ) else c1
  { currentTree := 0
    stop := false
    silent := silent
    computeMovedSpecies := computeMovedSpecies
    movedSpeciesCutoff := c2
    normalizeByExpected := normalizeByExpected
    computeTransferPerBranches := computeTransferPerBranches
    computeHighTransferPerBranches := computeHighTransferPerBranches }

/-- C8: `NewBoosterSupporter` stores the cutoff unchanged on `[0,1]` and
replaces any cutoff outside `[0,1]` — in particular any negative one — by
`1.0`, never by `0`. -/
theorem NewBoosterSupporter_clamps_cutoff (s m tb htb n : Bool) (q : ℚ) :
    (NewBoosterSupporter s m tb htb q n).movedSpeciesCutoff =
      if q < 0 ∨ 1 < q then 1 else q := by
  unfold NewBoosterSupporter
  dsimp only
  by_cases h1 : q < 0
  · norm_num [h1]
  · by_cases h2 : 1 < q
    · norm_num [h1, h2]
    · norm_num [h1, h2]

/-- C10: a tree made by `NewTree` has a nil root, and `Rooted`, `Edges`,
`Nodes` and `Tips` dereference the root with no error branch: on the fresh
tree they hit the nil root (modelled as `none`, the Go code panics), while on
any tree whose root is set they are defined. -/
theorem newTree_nil_root_traversals_panic :
    NewTree.root = none ∧ Rooted NewTree = none ∧ Edges NewTree = none ∧
      NodesT NewTree = none ∧ TipsT NewTree = none ∧
      (∀ (t : GTree) (r : GNode), t.root = some r →
        (Rooted t).isSome ∧ (Edges t).isSome ∧ (NodesT t).isSome ∧ (TipsT t).isSome) := by
  refine ⟨rfl, rfl, rfl, rfl, rfl, ?_⟩
  intro t r h
  simp [Rooted, Edges, NodesT, TipsT, h]

/-- Witness for C10: the rooted clause applied to a one-node tree. -/
theorem newTree_nil_root_traversals_panic_witness :
    (Rooted { root := some (GNode.node "a" GForest.nil), tipIndex := [] }).isSome := by
  exact (newTree_nil_root_traversals_panic.2.2.2.2.2
    { root := some (GNode.node "a" GForest.nil), tipIndex := [] }
    (GNode.node "a" GForest.nil) rfl).1

/-- Reduce modulo 2^16 (a Go conversion to `uint16`). -/
def w16 (n : ℕ) : ℕ := n % 65536

/-- Wrap-around `uint16` addition. -/
def add16 (a b : ℕ) : ℕ := (a + b) % 65536

/-- Wrap-around `uint16` subtraction (operands are kept below 2^16 by every
write in the embedding). -/
def sub16 (a b : ℕ) : ℕ := (a + 65536 - b % 65536) % 65536

/-- Pointwise update of a matrix embedded as a function of Go `int` ids. -/
def upd2 (m : Int → Int → ℕ) (r c : Int) (v : ℕ) : Int → Int → ℕ :=
  fun r' c' => if r' = r ∧ c' = c then v else m r' c'

/-- Pointwise update of a `uint16` array embedded as a function. -/
def upd1 (m : Int → ℕ) (r : Int) (v : ℕ) : Int → ℕ :=
  fun r' => if r' = r then v else m r'

/-- Pointwise update of an `int` array embedded as a function. -/
def updE (m : Int → Int) (r : Int) (v : Int) : Int → Int :=
  fun r' => if r' = r then v else m r'

/-- The worker-local Booster state: the `I` and `C` matrices, the Hamming
matrix, and the per-reference-edge minimum distance and its minimizing
bootstrap edge id.  Rows are reference-edge indices, columns bootstrap-edge
indices, exactly as in the Go slices. -/
structure DP where
  imat : Int → Int → ℕ
  cmat : Int → Int → ℕ
  ham : Int → Int → ℕ
  md : Int → ℕ
  mde : Int → Int

/-- Tip test for the right node of an edge (`be.Right().Tip()`; the right
node is never the root, so one neighbor means no children). -/
def rightIsTip (p : GEdge × GNode) : Bool := p.2.ch.length == 0

/-- The reference-pass loop seeding row `edgeId` at a reference tip named
`nm`: over all terminal bootstrap edges, compare tip names. -/
def seedTipRow (bootEdges : List (GEdge × GNode)) (edgeId : Int) (nm : String)
    (st : DP) : DP :=
  bootEdges.enum.foldl (fun st p =>
    if !(rightIsTip p.2) then st
    else if nm ≠ p.2.2.name then
      { st with imat := upd2 st.imat edgeId p.1 0, cmat := upd2 st.cmat edgeId p.1 1 }
    else
      { st with imat := upd2 st.imat edgeId p.1 1, cmat := upd2 st.cmat edgeId p.1 0 }) st

/-- The reference-pass loop initializing row `edgeId` of an internal
reference edge (0 for `I`, 1 for `C`, terminal bootstrap columns only). -/
def initRow (bootEdges : List (GEdge × GNode)) (edgeId : Int) (st : DP) : DP :=
  bootEdges.enum.foldl (fun st p =>
    if rightIsTip p.2 then
      { st with imat := upd2 st.imat edgeId p.1 0, cmat := upd2 st.cmat edgeId p.1 1 }
    else st) st

/-- The reference-pass loop folding a child row into its parent row: integer
OR for `I`, integer AND for `C`, terminal bootstrap columns only. -/
def combineRow (bootEdges : List (GEdge × GNode)) (edgeId edgeId2 : Int)
    (st : DP) : DP :=
  bootEdges.enum.foldl (fun st p =>
    if !(rightIsTip p.2) then st
    else
      let iv : ℕ := if st.imat edgeId p.1 ≠ 0 ∨ st.imat edgeId2 p.1 ≠ 0 then 1 else 0
      let cv : ℕ := if st.cmat edgeId p.1 ≠ 0 ∧ st.cmat edgeId2 p.1 ≠ 0 then 1 else 0
      { st with imat := upd2 st.imat edgeId p.1 iv, cmat := upd2 st.cmat edgeId p.1 cv }) st

mutual
/-- `update_i_c_post_order_ref_tree`: post-order walk of the reference tree;
`edgeId` is the id of the edge from the came-from node to `current`.  A tip
seeds its row by name comparison against every terminal bootstrap edge; an
internal node initializes its row and folds each child row in after the
child's recursive call. -/
def update_i_c_post_order_ref_tree (bootEdges : List (GEdge × GNode))
    (edgeId : Int) (current : GNode) (st : DP) : DP :=
  match current with
  | .node nm .nil => seedTipRow bootEdges edgeId nm st
  | .node _ (.cons e1 t1 r1) =>
      let st1 := initRow bootEdges edgeId st
      refChildren bootEdges edgeId (.cons e1 t1 r1) st1

/-- The per-child loop of `update_i_c_post_order_ref_tree`. -/
def refChildren (bootEdges : List (GEdge × GNode)) (edgeId : Int) :
    GForest → DP → DP
  | .nil, st => st
  | .cons e2 t2 rest, st =>
      let st1 := update_i_c_post_order_ref_tree bootEdges e2.eid t2 st
      let st2 := combineRow bootEdges edgeId e2.eid st1
      refChildren bootEdges edgeId rest st2
end

/-- `Update_all_i_c_post_order_ref_tree`: run the reference pass from every
root-incident edge. -/
def Update_all_i_c_post_order_ref_tree (refRoot : GNode)
    (bootEdges : List (GEdge × GNode)) (st : DP) : DP :=
  refRoot.ch.toList.foldl
    (fun st p => update_i_c_post_order_ref_tree bootEdges p.1.eid p.2 st) st

/-- Modelled from the spec: `Edge.NumTipsRight` (declared in a source file
not present under src) returns the number of tips on the right side of the
edge, read as the cardinality of its bipartition bitset, with an error when
the bitset is not initialized. -/
def NumTipsRight (e : GEdge) : Except String ℕ :=
  match e.bitset with
  | none => .error "Subtree tips bitset is nil"
  | some bs => .ok (popcount bs)

/-- `e3numtips, _ := e3.NumTipsRight()`: the error is discarded, leaving the
zero value. -/
def NumTipsRightVal (e : GEdge) : ℕ :=
  match NumTipsRight e with
  | .ok v => v
  | .error _ => 0

/-- Fold a raw Hamming distance to the true transfer distance
`min(dist, N - dist)`, exactly as the Go `uint16` comparison and wrap-around
subtraction do. -/
def fold16 (ntips : ℕ) (h : ℕ) : ℕ :=
  if h > w16 ntips / 2 then sub16 (w16 ntips) h else h

/-- The bootstrap-pass loop over all reference edges at bootstrap edge
`col`: store the folded Hamming entry and update the running minimum and its
minimizing bootstrap edge. -/
def hamMinLoop (refEdges : List (GEdge × GNode)) (ntips : ℕ) (col : Int)
    (st : DP) : DP :=
  refEdges.enum.foldl (fun st p =>
    let r : Int := p.1
    let h0 := sub16 (add16 (w16 (NumTipsRightVal p.2.1)) (st.cmat r col)) (st.imat r col)
    let h := fold16 ntips h0
    let st1 := { st with ham := upd2 st.ham r col h }
    if h < st1.md r then
      { st1 with md := upd1 st1.md r h, mde := updE st1.mde r col }
    else st1) st

/-- The bootstrap-pass loop zeroing the `I`/`C` column of an internal
bootstrap edge over all reference rows `0 .. len(edges)-1`. -/
def zeroColsLoop (nEdges : ℕ) (col : Int) (st : DP) : DP :=
  (List.range nEdges).foldl (fun st k =>
    { st with imat := upd2 st.imat k col 0, cmat := upd2 st.cmat k col 0 }) st

/-- The bootstrap-pass loop adding a child column into its parent column
(`uint16` sums) over all reference rows. -/
def addColsLoop (nEdges : ℕ) (col col2 : Int) (st : DP) : DP :=
  (List.range nEdges).foldl (fun st k =>
    { st with
        imat := upd2 st.imat k col (add16 (st.imat k col) (st.imat k col2))
        cmat := upd2 st.cmat k col (add16 (st.cmat k col) (st.cmat k col2)) }) st

mutual
/-- `update_i_c_post_order_boot_tree`: post-order walk of the bootstrap
tree; `edgeId` is the id of the edge from the came-from node to `current`.
An internal node zeroes its column, recurses into each child adding the
child column in, and in every case the folded Hamming entries of the edge's
column are computed and folded into the per-reference-edge minima. -/
def update_i_c_post_order_boot_tree (refEdges : List (GEdge × GNode))
    (ntips : ℕ) (edgeId : Int) (current : GNode) (st : DP) : DP :=
  match current with
  | .node _ .nil => hamMinLoop refEdges ntips edgeId st
  | .node _ (.cons e1 t1 r1) =>
      let st1 := zeroColsLoop refEdges.length edgeId st
      let st2 := bootChildren refEdges ntips edgeId (.cons e1 t1 r1) st1
      hamMinLoop refEdges ntips edgeId st2

/-- The per-child loop of `update_i_c_post_order_boot_tree`. -/
def bootChildren (refEdges : List (GEdge × GNode)) (ntips : ℕ)
    (edgeId : Int) : GForest → DP → DP
  | .nil, st => st
  | .cons e2 t2 rest, st =>
      let st1 := update_i_c_post_order_boot_tree refEdges ntips e2.eid t2 st
      let st2 := addColsLoop refEdges.length edgeId e2.eid st1
      bootChildren refEdges ntips edgeId rest st2
end

/-- The final consistency checks of `Update_all_i_c_post_order_boot_tree`:
a negative minimum distance (impossible for the unsigned `uint16` entries)
or a nonzero minimum distance on a terminal reference edge is a fatal
error; the first violation in edge order is returned. -/
def checkMinDist (st : DP) : List (GEdge × GNode) → Except String Unit
  | [] => .ok ()
  | (e, t) :: rest =>
      if st.md e.eid < 0 then .error "Min dist should be >= 0"
      else if t.ch.length == 0 && st.md e.eid != 0 then
        .error ("any terminal edge should have an exact match in any bootstrap tree (" ++
          toString (st.md e.eid) ++ ")")
      else checkMinDist st rest

/-- `Update_all_i_c_post_order_boot_tree`: run the bootstrap pass from every
root-incident edge of the bootstrap tree, then run the consistency checks.
The Go function mutates the arrays in place and returns only the error; the
embedding returns both the final state and the error. -/
def Update_all_i_c_post_order_boot_tree (refEdges : List (GEdge × GNode))
    (ntips : ℕ) (bootRoot : GNode) (st : DP) : DP × Except String Unit :=
  let st2 := bootRoot.ch.toList.foldl
    (fun st p => update_i_c_post_order_boot_tree refEdges ntips p.1.eid p.2 st) st
  (st2, checkMinDist st2 refEdges)

/-- The consistency check can only succeed or report a nonzero terminal-edge
distance: the negative-distance branch compares a natural (`uint16`) value
with 0. -/
theorem checkMinDist_ok_or_tip_error (st : DP) (l : List (GEdge × GNode)) :
    checkMinDist st l = .ok () ∨
      ∃ d : ℕ, checkMinDist st l =
        .error ("any terminal edge should have an exact match in any bootstrap tree (" ++
          toString d ++ ")") := by
  induction l with
  | nil => exact Or.inl rfl
  | cons p rest ih =>
      obtain ⟨e, t⟩ := p
      rw [checkMinDist]
      rw [if_neg (by simp)]
      by_cases h : (t.ch.length == 0 && st.md e.eid != 0) = true
      · rw [if_pos h]
        exact Or.inr ⟨st.md e.eid, rfl⟩
      · rw [if_neg h]
        exact ih

/-- C9: the error branch guarded by `min_dist[e.Id()] < 0` in
`Update_all_i_c_post_order_boot_tree` is unreachable for every input, the
minimum distances being unsigned 16-bit values; the only error the function
can return is the nonzero-distance-on-a-terminal-edge error. -/
theorem update_all_boot_neg_guard_unreachable
    (refEdges : List (GEdge × GNode)) (ntips : ℕ) (bootRoot : GNode) (st : DP) :
    (Update_all_i_c_post_order_boot_tree refEdges ntips bootRoot st).2 = .ok () ∨
      ∃ d : ℕ, (Update_all_i_c_post_order_boot_tree refEdges ntips bootRoot st).2 =
        .error ("any terminal edge should have an exact match in any bootstrap tree (" ++
          toString d ++ ")") := by
  exact checkMinDist_ok_or_tip_error _ refEdges

/-- Outcome of `removeTip` below a node, as seen by the caller one level up:
either the subtree was rewritten in place, or the child node was left with
degree 2 and spliced out, asking the caller to merge its own edge with the
surviving edge `e2` leading to the surviving subtree `c`. -/
inductive RTRes where
  | same (t : GNode)
  | splice (e2 : GEdge) (c : GNode)
  | promote (c : GNode)
deriving Repr, DecidableEq

/-- Go `math.Max` on the embedded rationals. -/
def qmax (a b : ℚ) : ℚ := if a < b then b else a

/-- The merged edge built in case 2 of `removeTip` from the two edges
incident to the spliced-out node: a fresh edge (`ConnectNodes`/`NewEdge`),
whose length is set when at least one of the two lengths is set
(`math.Max(0, length1) + math.Max(0, length2)`), and whose support is set
when at least one support is set and both endpoint nodes of the new edge
have more than one neighbor.  `deg1`/`deg2` are the neighbor counts of the
two reconnected nodes after `ConnectNodes`, the values the Go condition
`len(n1.neigh) > 1 && len(n2.neigh) > 1` reads. -/
def mergedEdge (b1 b2 : GEdge) (deg1 deg2 : ℕ) : GEdge :=
  let e := NewEdgeE
  let e := if b1.length ≠ NIL_LENGTH ∨ b2.length ≠ NIL_LENGTH then
    { e with length := qmax 0 b1.length + qmax 0 b2.length } else e
  if (b1.support ≠ NIL_SUPPORT ∨ b2.support ≠ NIL_SUPPORT) ∧ deg1 > 1 ∧ deg2 > 1 then
    { e with support := qmax b1.support b2.support } else e

/-- Concatenation of forests (Go slice append of child lists). -/
def gappend : GForest → GForest → GForest
  | .nil, g => g
  | .cons e t rest, g => .cons e t (gappend rest g)

/-- Outcome of locating the removal path inside a child forest: the `i`-th
subtree rewritten in place, a degree-2 splice bubbling up from the `i`-th
child together with the forest with that child removed, the tip itself
removed from the forest, or a failure. -/
inductive FRes where
  | deepSame (f : GForest)
  | deepSplice (ei e2 : GEdge) (c : GNode) (fRem : GForest)
  | tipRemoved (fRem : GForest)
  | fail (s : String)
deriving Repr, DecidableEq

mutual
/-- `Tree.removeTip`, located by a path of child indices from the current
node; `hasParent` tells whether the current node has a came-from parent
(false exactly at the root).  The degree cases follow the Go case analysis
(case 1: degree 1, root only; case 2: degree 2, splice with the merged
edge; case 3: nothing).  The orientation case `n1--->internal<---n2` (two
parents) cannot arise in the rooted embedding.  `promote` is produced only
in the root frame. -/
def removeTipN (hasParent : Bool) : GNode → List ℕ → Except String RTRes
  | _, [] => .error "path does not lead below the current node"
  | .node nm f, i :: rest =>
      match removeTipF f i rest with
      | .fail s => .error s
      | .deepSame f2 => .ok (.same (.node nm f2))
      | .deepSplice ei e2 c fRem =>
          let deg1 := f.length + (if hasParent then 1 else 0)
          .ok (.same (.node nm
            (gappend fRem (.cons (mergedEdge ei e2 deg1 (c.ch.length + 1)) c .nil))))
      | .tipRemoved fRem =>
          match hasParent, fRem with
          | true, .nil =>
              .error "After tip removal, this node should not have degre 1 without being the root"
          | true, .cons e2 c .nil => .ok (.splice e2 c)
          | true, .cons _ _ (.cons _ _ _) => .ok (.same (.node nm fRem))
          | false, .cons _ c .nil => .ok (.promote c)
          | false, .cons e1 c1 (.cons e2 c2 .nil) =>
              if c1.ch.length > 1 then
                .ok (.promote (.node c1.name (gappend c1.ch
                  (.cons (mergedEdge e1 e2 (c1.ch.length + 1) (c2.ch.length + 1)) c2 .nil))))
              else if c1.ch.length = 1 then
                .error "The neighbor n1 should not have only one neighbor"
              else if c2.ch.length > 1 then
                .ok (.promote (.node c2.name (gappend c2.ch
                  (.cons (mergedEdge e1 e2 (c1.ch.length + 1) (c2.ch.length + 1)) c1 .nil))))
              else if c2.ch.length = 1 then
                .error "The neighbor n2 should not have only one neighbor"
              else .error "The tree after tip removal is only made of two tips"
          | false, _ => .ok (.same (.node nm fRem))

/-- Walk the child forest to the `i`-th entry and apply the removal there. -/
def removeTipF : GForest → ℕ → List ℕ → FRes
  | .nil, _, _ => .fail "path index out of range"
  | .cons e t rest, 0, restPath =>
      match restPath with
      | [] =>
          if t.ch.length ≠ 0 then .fail "Cannot remove node, it is not a tip"
          else .tipRemoved rest
      | _ :: _ =>
          match removeTipN true t restPath with
          | .error s => .fail s
          | .ok (.promote _) => .fail "promote cannot arise below the root"
          | .ok (.same t2) => .deepSame (.cons e t2 rest)
          | .ok (.splice e2 c) => .deepSplice e e2 c rest
  | .cons e t rest, Nat.succ i, restPath =>
      match removeTipF rest i restPath with
      | .deepSame f2 => .deepSame (.cons e t f2)
      | .deepSplice ei e2 c fRem => .deepSplice ei e2 c (.cons e t fRem)
      | .tipRemoved fRem => .tipRemoved (.cons e t fRem)
      | .fail s => .fail s
end

/-- `Tree.removeTip` from the root of the tree.  A path naming the root
itself fails (in Go such a call attempts to detach the root from itself and
fails inside `delNeighbor`).  The `promote` outcome (Go case 1, and the
root cases of the splice analysis) replaces the root. -/
def removeTipGo (root : GNode) (path : List ℕ) : Except String GNode :=
  match removeTipN false root path with
  | .error s => .error s
  | .ok (.same t) => .ok t
  | .ok (.promote c) => .ok c
  | .ok (.splice _ _) => .error "splice cannot arise at the root"

mutual
/-- Subtree of a node at a path of child indices. -/
def subtreeAtN : GNode → List ℕ → Option GNode
  | t, [] => some t
  | .node _ f, i :: rest => subtreeAtF f i rest

/-- Subtree of the `i`-th entry of a forest at a path. -/
def subtreeAtF : GForest → ℕ → List ℕ → Option GNode
  | .nil, _, _ => none
  | .cons _ t _, 0, path => subtreeAtN t path
  | .cons _ _ rest, Nat.succ i, path => subtreeAtF rest i path
end

/-- Edge with a given length and support, other attributes unset. -/
def mkE (len sup : ℚ) : GEdge := { NewEdgeE with length := len, support := sup }

/-- Concrete tree for the `removeTip` merge behavior: root `R` with tip `A`
and internal child `N`; `N` carries internal child `M` (tips `B1`, `B2`)
over an edge of length 3 and support 5, and tip `C`; the edge `R--N` has
unset length and support. -/
def c2cexTree : GNode :=
  .node "R" (.cons (mkE 1 NIL_SUPPORT) (.node "A" .nil)
    (.cons (mkE NIL_LENGTH NIL_SUPPORT)
      (.node "N" (.cons (mkE 3 5)
          (.node "M" (.cons (mkE 2 NIL_SUPPORT) (.node "B1" .nil)
            (.cons (mkE 2 NIL_SUPPORT) (.node "B2" .nil) .nil)))
        (.cons (mkE 7 NIL_SUPPORT) (.node "C" .nil) .nil)))
      .nil))

/-- Counterexample for C2: removing tip `C` leaves `N` with degree 2; the
edge `R--N` has unset length and support while `N--M` has length 3 and
support 5, i.e. only one of each pair is defined — yet the merged edge gets
length 3 and support 5, not the unset sentinels the claim asserts. -/
theorem removeTip_one_defined_attr_is_kept :
    removeTipGo c2cexTree [1, 1] = .ok (.node "R"
      (.cons (mkE 1 NIL_SUPPORT) (.node "A" .nil)
        (.cons (mergedEdge (mkE NIL_LENGTH NIL_SUPPORT) (mkE 3 5) 2 3)
          (.node "M" (.cons (mkE 2 NIL_SUPPORT) (.node "B1" .nil)
            (.cons (mkE 2 NIL_SUPPORT) (.node "B2" .nil) .nil))) .nil))) ∧
    (mergedEdge (mkE NIL_LENGTH NIL_SUPPORT) (mkE 3 5) 2 3).length = 3 ∧
    (mergedEdge (mkE NIL_LENGTH NIL_SUPPORT) (mkE 3 5) 2 3).support = 5 ∧
    (3 : ℚ) ≠ NIL_LENGTH ∧ (5 : ℚ) ≠ NIL_SUPPORT := by
  refine ⟨rfl, ?_, ?_, by norm_num [NIL_LENGTH], by norm_num [NIL_SUPPORT]⟩
  · norm_num [mergedEdge, mkE, NewEdgeE, qmax, NIL_LENGTH, NIL_SUPPORT]
  · norm_num [mergedEdge, mkE, NewEdgeE, qmax, NIL_LENGTH, NIL_SUPPORT]

/-- The `i`-th entry of a forest. -/
def gnth : GForest → ℕ → Option (GEdge × GNode)
  | .nil, _ => none
  | .cons e t _, 0 => some (e, t)
  | .cons _ _ rest, Nat.succ i => gnth rest i

/-- Forest with the `i`-th entry removed (`delNeighbor`). -/
def gremove : GForest → ℕ → GForest
  | .nil, _ => .nil
  | .cons _ _ rest, 0 => rest
  | .cons e t rest, Nat.succ i => .cons e t (gremove rest i)

/-- Forest with the `i`-th subtree replaced, edge kept. -/
def gset : GForest → ℕ → GNode → GForest
  | .nil, _, _ => .nil
  | .cons e _ rest, 0, t2 => .cons e t2 rest
  | .cons e t rest, Nat.succ i, t2 => .cons e t (gset rest i t2)

/-- A deep removal that rewrote the `i`-th subtree in place shows up as
`deepSame` with that subtree replaced. -/
theorem removeTipF_deepSame : ∀ (f : GForest) (p : ℕ) (ep : GEdge) (tp : GNode)
    (rp : List ℕ) (t2 : GNode), gnth f p = some (ep, tp) → rp ≠ [] →
    removeTipN true tp rp = Except.ok (.same t2) →
    removeTipF f p rp = .deepSame (gset f p t2)
  | .nil, p, _, _, _, _, h, _, _ => by simp [gnth] at h
  | .cons e t rest, 0, ep, tp, rp, t2, h, hrp, hrec => by
      simp [gnth] at h
      obtain ⟨he, ht⟩ := h
      subst he ht
      match rp, hrp with
      | r0 :: rs, _ => simp [removeTipF, hrec, gset]
  | .cons e t rest, Nat.succ p, ep, tp, rp, t2, h, hrp, hrec => by
      simp [gnth] at h
      have ih := removeTipF_deepSame rest p ep tp rp t2 h hrp hrec
      simp [removeTipF, ih, gset]

/-- A splice bubbling up from the `i`-th child shows up as `deepSplice`
carrying the parent edge and the forest with that child removed. -/
theorem removeTipF_deepSplice : ∀ (f : GForest) (p : ℕ) (ep : GEdge) (tp : GNode)
    (rp : List ℕ) (e2 : GEdge) (c : GNode), gnth f p = some (ep, tp) → rp ≠ [] →
    removeTipN true tp rp = Except.ok (.splice e2 c) →
    removeTipF f p rp = .deepSplice ep e2 c (gremove f p)
  | .nil, p, _, _, _, _, _, h, _, _ => by simp [gnth] at h
  | .cons e t rest, 0, ep, tp, rp, e2, c, h, hrp, hrec => by
      simp [gnth] at h
      obtain ⟨he, ht⟩ := h
      subst he ht
      match rp, hrp with
      | r0 :: rs, _ => simp [removeTipF, hrec, gremove]
  | .cons e t rest, Nat.succ p, ep, tp, rp, e2, c, h, hrp, hrec => by
      simp [gnth] at h
      have ih := removeTipF_deepSplice rest p ep tp rp e2 c h hrp hrec
      simp [removeTipF, ih, gremove]

/-- Removing a leaf child at index `j` of a forest yields `tipRemoved` with
that entry erased. -/
theorem removeTipF_tipRemoved : ∀ (f : GForest) (j : ℕ) (ej : GEdge) (tj : GNode),
    gnth f j = some (ej, tj) → tj.ch = .nil →
    removeTipF f j [] = .tipRemoved (gremove f j)
  | .nil, j, _, _, h, _ => by simp [gnth] at h
  | .cons e t rest, 0, ej, tj, h, hleaf => by
      simp [gnth] at h
      obtain ⟨he, ht⟩ := h
      subst he ht
      simp [removeTipF, hleaf, GForest.length, gremove]
  | .cons e t rest, Nat.succ j, ej, tj, h, hleaf => by
      simp [gnth] at h
      have ih := removeTipF_tipRemoved rest j ej tj h hleaf
      simp [removeTipF, ih, gremove]

/-- Reading a path under a replaced subtree. -/
theorem subtreeAtF_gset : ∀ (f : GForest) (p : ℕ) (ep : GEdge) (tp : GNode)
    (t2 : GNode) (ps : List ℕ), gnth f p = some (ep, tp) →
    subtreeAtF (gset f p t2) p ps = subtreeAtN t2 ps
  | .nil, p, _, _, _, _, h => by simp [gnth] at h
  | .cons e t rest, 0, ep, tp, t2, ps, h => by simp [gset, subtreeAtF]
  | .cons e t rest, Nat.succ p, ep, tp, t2, ps, h => by
      simp [gnth] at h
      simp [gset, subtreeAtF, subtreeAtF_gset rest p ep tp t2 ps h]

/-- A successful path read factors through the indexed child. -/
theorem subtreeAtF_elim : ∀ (f : GForest) (p : ℕ) (ps : List ℕ) (g : GNode),
    subtreeAtF f p ps = some g →
    ∃ ep tp, gnth f p = some (ep, tp) ∧ subtreeAtN tp ps = some g
  | .nil, p, ps, g, h => by simp [subtreeAtF] at h
  | .cons e t rest, 0, ps, g, h => ⟨e, t, rfl, by simpa [subtreeAtF] using h⟩
  | .cons e t rest, Nat.succ p, ps, g, h => by
      simp [subtreeAtF] at h
      obtain ⟨ep, tp, h1, h2⟩ := subtreeAtF_elim rest p ps g h
      exact ⟨ep, tp, h1, h2⟩

/-- Lifting an in-place rewrite at the end of a path through `removeTipN`:
ancestors rebuild themselves around the rewritten node, and the rewritten
node is found at the same path afterwards. -/
theorem removeTipN_lift : ∀ (path : List ℕ) (hp : Bool) (root g g' : GNode)
    (L : List ℕ), L ≠ [] → subtreeAtN root path = some g →
    removeTipN (if path = [] then hp else true) g L = Except.ok (.same g') →
    ∃ root', removeTipN hp root (path ++ L) = Except.ok (.same root') ∧
      subtreeAtN root' path = some g'
  | [], hp, root, g, g', L, hL, hsub, hrun => by
      simp [subtreeAtN] at hsub
      subst hsub
      exact ⟨g', by simpa using hrun, by simp [subtreeAtN]⟩
  | p :: ps, hp, root, g, g', L, hL, hsub, hrun => by
      match root with
      | .node nm f =>
          simp [subtreeAtN] at hsub
          obtain ⟨ep, tp, hg, hsubtp⟩ := subtreeAtF_elim f p ps g hsub
          have hrun' : removeTipN (if ps = [] then true else true) g L =
              Except.ok (.same g') := by simpa using hrun
          obtain ⟨tp', hrunTp, hsubTp'⟩ :=
            removeTipN_lift ps true tp g g' L hL hsubtp hrun'
          have hF := removeTipF_deepSame f p ep tp (ps ++ L) tp' hg
            (fun h => hL (List.append_eq_nil.mp h).2) hrunTp
          refine ⟨.node nm (gset f p tp'), ?_, ?_⟩
          · simp [removeTipN, hF]
          · simp [subtreeAtN, subtreeAtF_gset f p ep tp tp' ps hg, hsubTp']

/-- C2 (amended): when `removeTip` leaves the former parent node with degree
2, the two incident edges are merged into one reconnecting edge whose length
is set whenever AT LEAST ONE of the two lengths is defined — to
`max(0,l1) + max(0,l2)`, so a single defined length is kept, not dropped —
and whose support is set whenever at least one support is defined AND both
endpoint nodes of the merged edge have more than one neighbor (the merged
edge is not a tip edge) — to `max(s1,s2)`; in all other cases the sentinel
stays.  Stated for a tip at path `path ++ [i, j]` whose parent (at
`path ++ [i]`, left with the single child `c`) is spliced out. -/
theorem removeTip_degree2_merge_amended (root : GNode) (path : List ℕ)
    (i j : ℕ) (nmg : String) (fg : GForest) (ei : GEdge) (nmt : String)
    (ft : GForest) (ej : GEdge) (tj : GNode) (e2 : GEdge) (c : GNode)
    (hg : subtreeAtN root path = some (.node nmg fg))
    (hchild : gnth fg i = some (ei, .node nmt ft))
    (htip : gnth ft j = some (ej, tj))
    (hleaf : tj.ch = .nil)
    (hdeg2 : gremove ft j = .cons e2 c .nil) :
    ∃ root', removeTipGo root (path ++ [i, j]) = .ok root' ∧
      subtreeAtN root' path = some (.node nmg (gappend (gremove fg i)
        (.cons (mergedEdge ei e2 (fg.length + (if path = [] then 0 else 1))
          (c.ch.length + 1)) c .nil))) ∧
      (∀ d1 d2 : ℕ, (mergedEdge ei e2 d1 d2).length =
        (if ei.length ≠ NIL_LENGTH ∨ e2.length ≠ NIL_LENGTH then
          qmax 0 ei.length + qmax 0 e2.length else NIL_LENGTH)) ∧
      (∀ d1 d2 : ℕ, (mergedEdge ei e2 d1 d2).support =
        (if (ei.support ≠ NIL_SUPPORT ∨ e2.support ≠ NIL_SUPPORT) ∧ 1 < d1 ∧ 1 < d2 then
          qmax ei.support e2.support else NIL_SUPPORT)) := by
  have hTipRem := removeTipF_tipRemoved ft j ej tj htip hleaf
  have hSplice : removeTipN true (.node nmt ft) [j] = Except.ok (.splice e2 c) := by
    simp [removeTipN, hTipRem, hdeg2]
  have hDeep := removeTipF_deepSplice fg i ei (.node nmt ft) [j] e2 c hchild
    (by simp) hSplice
  have hSame : removeTipN (if path = [] then false else true) (.node nmg fg) [i, j] =
      Except.ok (.same (.node nmg (gappend (gremove fg i)
        (.cons (mergedEdge ei e2 (fg.length + (if path = [] then 0 else 1))
          (c.ch.length + 1)) c .nil)))) := by
    by_cases hpath : path = [] <;> simp [hpath, removeTipN, hDeep]
  obtain ⟨root', hrun, hsub⟩ :=
    removeTipN_lift path false root (.node nmg fg) _ [i, j] (by simp) hg hSame
  refine ⟨root', ?_, hsub, ?_, ?_⟩
  · simp [removeTipGo, hrun]
  · intro d1 d2
    by_cases hc : ei.length ≠ NIL_LENGTH ∨ e2.length ≠ NIL_LENGTH <;>
      by_cases hs : (ei.support ≠ NIL_SUPPORT ∨ e2.support ≠ NIL_SUPPORT) ∧ 1 < d1 ∧ 1 < d2 <;>
      simp [mergedEdge, NewEdgeE, hc, hs]
  · intro d1 d2
    by_cases hc : ei.length ≠ NIL_LENGTH ∨ e2.length ≠ NIL_LENGTH <;>
      by_cases hs : (ei.support ≠ NIL_SUPPORT ∨ e2.support ≠ NIL_SUPPORT) ∧ 1 < d1 ∧ 1 < d2 <;>
      simp [mergedEdge, NewEdgeE, hc, hs]

/-- Witness for the amended C2 theorem: the concrete counterexample tree,
removing tip `C` (path `[] ++ [1, 1]`). -/
theorem removeTip_degree2_merge_amended_witness :
    ∃ root', removeTipGo c2cexTree ([] ++ [1, 1]) = .ok root' ∧
      subtreeAtN root' [] = some (.node "R" (gappend
        (gremove c2cexTree.ch 1)
        (.cons (mergedEdge (mkE NIL_LENGTH NIL_SUPPORT) (mkE 3 5)
          (c2cexTree.ch.length + (if ([] : List ℕ) = [] then 0 else 1))
          ((GNode.node "M" (.cons (mkE 2 NIL_SUPPORT) (.node "B1" .nil)
            (.cons (mkE 2 NIL_SUPPORT) (.node "B2" .nil) .nil))).ch.length + 1))
          (.node "M" (.cons (mkE 2 NIL_SUPPORT) (.node "B1" .nil)
            (.cons (mkE 2 NIL_SUPPORT) (.node "B2" .nil) .nil))) .nil))) ∧
      (∀ d1 d2 : ℕ, (mergedEdge (mkE NIL_LENGTH NIL_SUPPORT) (mkE 3 5) d1 d2).length =
        (if (mkE NIL_LENGTH NIL_SUPPORT).length ≠ NIL_LENGTH ∨ (mkE 3 5).length ≠ NIL_LENGTH then
          qmax 0 (mkE NIL_LENGTH NIL_SUPPORT).length + qmax 0 (mkE 3 5).length else NIL_LENGTH)) ∧
      (∀ d1 d2 : ℕ, (mergedEdge (mkE NIL_LENGTH NIL_SUPPORT) (mkE 3 5) d1 d2).support =
        (if ((mkE NIL_LENGTH NIL_SUPPORT).support ≠ NIL_SUPPORT ∨ (mkE 3 5).support ≠ NIL_SUPPORT) ∧
            1 < d1 ∧ 1 < d2 then
          qmax (mkE NIL_LENGTH NIL_SUPPORT).support (mkE 3 5).support else NIL_SUPPORT)) :=
  removeTip_degree2_merge_amended c2cexTree [] 1 1 "R" c2cexTree.ch
    (mkE NIL_LENGTH NIL_SUPPORT) "N"
    (.cons (mkE 3 5) (.node "M" (.cons (mkE 2 NIL_SUPPORT) (.node "B1" .nil)
      (.cons (mkE 2 NIL_SUPPORT) (.node "B2" .nil) .nil)))
      (.cons (mkE 7 NIL_SUPPORT) (.node "C" .nil) .nil))
    (mkE 7 NIL_SUPPORT) (.node "C" .nil) (mkE 3 5)
    (.node "M" (.cons (mkE 2 NIL_SUPPORT) (.node "B1" .nil)
      (.cons (mkE 2 NIL_SUPPORT) (.node "B2" .nil) .nil)))
    rfl rfl rfl rfl rfl

/-- Length of an edge's allocated bitset (0 when nil). -/
def bitLen (e : GEdge) : ℕ :=
  match e.bitset with
  | none => 0
  | some bs => bs.length

/-- Tip ordinals of a list of tip names under an index. -/
def idxList (idx : List (String × ℕ)) (names : List String) : List ℕ :=
  names.filterMap (assocFind idx)

mutual
/-- The tree `fillRightBitSet` leaves behind on success: every edge's
bitset is the zeroed vector of its allocated length with the ordinals of
the tips below it set. -/
def fillShapeN (idx : List (String × ℕ)) : GNode → GNode
  | .node nm f => .node nm (fillShapeF idx f)

/-- Forest version of `fillShapeN`. -/
def fillShapeF (idx : List (String × ℕ)) : GForest → GForest
  | .nil => .nil
  | .cons e t rest =>
      .cons { e with bitset := some (setBits (List.replicate (bitLen e) false)
          (idxList idx (allTipNamesN true t))) }
        (fillShapeN idx t) (fillShapeF idx rest)
end

/-- A successful association-list lookup forces a nonempty list. -/
theorem assocFind_ne_nil (idx : List (String × ℕ)) (nm : String) (o : ℕ)
    (h : assocFind idx nm = some o) : idx.length ≠ 0 := by
  cases idx with
  | nil => simp [assocFind] at h
  | cons p rest => simp

/-- Unfolding `edgesSub` through the child accessor. -/
theorem edgesSub_eq (t : GNode) : edgesSub t = edgesF t.ch := by
  cases t with
  | node nm f => rfl

mutual
/-- On a tree whose edges all carry allocated bitsets and whose tip names
are all found in the index, `fillRightBitSet` succeeds and produces the
`fillShape` tree together with the tip ordinals of the subtree. -/
theorem fillRightE_ok (idx : List (String × ℕ)) :
    ∀ (e : GEdge) (t : GNode) (bs0 : List Bool), e.bitset = some bs0 →
    (∀ p ∈ edgesF t.ch, p.1.bitset.isSome) →
    (∀ nm ∈ allTipNamesN true t, ∃ o, assocFind idx nm = some o) →
    fillRightE idx e t = .ok
      ({ e with bitset := some (setBits (List.replicate bs0.length false)
          (idxList idx (allTipNamesN true t))) },
        fillShapeN idx t, idxList idx (allTipNamesN true t))
  | e, .node nm .nil, bs0, halloc, hsub, hnames => by
      obtain ⟨o, ho⟩ := hnames nm (by simp [allTipNamesN, nneigh, GNode.ch, GForest.length])
      have hne : idx.length ≠ 0 := assocFind_ne_nil idx nm o ho
      simp only [fillRightE, halloc]
      simp [allTipNamesN, nneigh, GNode.ch, GForest.length, TipIndexLookup, hne, ho,
        idxList, setBits, fillShapeN, fillShapeF]
  | e, .node nm (.cons e1 t1 r1), bs0, halloc, hsub, hnames => by
      have hF := fillRightF_ok idx (.cons e1 t1 r1) (by simpa [GNode.ch] using hsub)
        (by
          intro nm2 hnm2
          exact hnames nm2 (by
            simp [allTipNamesN, nneigh, GNode.ch, GForest.length]
            simpa using hnm2))
      simp only [fillRightE, halloc]
      simp only [hF]
      simp [allTipNamesN, nneigh, GNode.ch, GForest.length, fillShapeN]

/-- Forest version of `fillRightE_ok`. -/
theorem fillRightF_ok (idx : List (String × ℕ)) :
    ∀ (f : GForest), (∀ p ∈ edgesF f, p.1.bitset.isSome) →
    (∀ nm ∈ allTipNamesList f, ∃ o, assocFind idx nm = some o) →
    fillRightF idx f = .ok (fillShapeF idx f, idxList idx (allTipNamesList f))
  | .nil, _, _ => by simp [fillRightF, fillShapeF, allTipNamesList, idxList]
  | .cons e t rest, halloc, hnames => by
      obtain ⟨bs0, hbs0⟩ : ∃ bs, e.bitset = some bs := by
        have := halloc (e, t) (by simp [edgesF])
        simpa [Option.isSome_iff_exists] using this
      have hE := fillRightE_ok idx e t bs0 hbs0
        (by
          intro p hp
          exact halloc p (by
            simp [edgesF, edgesSub_eq]
            right; left; exact hp))
        (by
          intro nm hnm
          exact hnames nm (by simp [allTipNamesList]; left; exact hnm))
      have hR := fillRightF_ok idx rest
        (by
          intro p hp
          exact halloc p (by simp [edgesF]; right; right; exact hp))
        (by
          intro nm hnm
          exact hnames nm (by simp [allTipNamesList]; right; exact hnm))
      simp only [fillRightF, hE, hR]
      simp [fillShapeF, allTipNamesList, idxList, bitLen, hbs0, List.filterMap_append]
end

/-- Setting bits never changes the vector length. -/
theorem setBits_length (is : List ℕ) : ∀ bs : List Bool, (setBits bs is).length = bs.length := by
  induction is with
  | nil => intro bs; rfl
  | cons i is ih =>
      intro bs
      have : setBits bs (i :: is) = setBits (bs.set i true) is := rfl
      rw [this, ih, List.length_set]

/-- Bit `o` of a mask built by setting the bits `is` on `bs`. -/
theorem testBit_setBits (is : List ℕ) : ∀ (bs : List Bool) (o : ℕ),
    testBit (setBits bs is) o = true ↔
      (testBit bs o = true ∨ (o ∈ is ∧ o < bs.length)) := by
  induction is with
  | nil => intro bs o; simp [setBits]
  | cons i is ih =>
      intro bs o
      have hstep : setBits bs (i :: is) = setBits (bs.set i true) is := rfl
      rw [hstep, ih (bs.set i true) o]
      have hset : testBit (bs.set i true) o = true ↔
          ((o = i ∧ i < bs.length) ∨ testBit bs o = true) := by
        unfold testBit
        by_cases hlt : i < bs.length
        · by_cases hoi : o = i
          · subst hoi
            simp [List.getD, List.getElem?_set, hlt]
          · simp [List.getD, List.getElem?_set, hoi, Ne.symm hoi]
        · rw [List.set_eq_of_length_le (Nat.le_of_not_lt hlt)]
          simp [hlt]
      rw [List.length_set]
      constructor
      · rintro (h | ⟨hmem, hlt⟩)
        · rcases hset.mp h with ⟨rfl, hlt⟩ | h
          · exact Or.inr ⟨by simp, hlt⟩
          · exact Or.inl h
        · exact Or.inr ⟨by simp [hmem], hlt⟩
      · rintro (h | ⟨hmem, hlt⟩)
        · exact Or.inl (hset.mpr (Or.inr h))
        · rcases List.mem_cons.mp hmem with rfl | hmem2
          · exact Or.inl (hset.mpr (Or.inl ⟨rfl, hlt⟩))
          · exact Or.inr ⟨hmem2, hlt⟩

/-- Lengths of the shaped forest match the original. -/
theorem fillShapeF_length (idx : List (String × ℕ)) :
    ∀ f : GForest, (fillShapeF idx f).length = f.length
  | .nil => rfl
  | .cons e t rest => by simp [fillShapeF, GForest.length, fillShapeF_length idx rest]

mutual
/-- The shaped tree has the same tip names. -/
theorem allTipNames_fillShapeN (idx : List (String × ℕ)) :
    ∀ (hp : Bool) (t : GNode), allTipNamesN hp (fillShapeN idx t) = allTipNamesN hp t
  | hp, .node nm f => by
      simp [fillShapeN, allTipNamesN, nneigh, GNode.ch, fillShapeF_length idx f,
        allTipNames_fillShapeF idx f]

/-- Forest version of `allTipNames_fillShapeN`. -/
theorem allTipNames_fillShapeF (idx : List (String × ℕ)) :
    ∀ f : GForest, allTipNamesList (fillShapeF idx f) = allTipNamesList f
  | .nil => rfl
  | .cons e t rest => by
      simp [fillShapeF, allTipNamesList, allTipNames_fillShapeN idx true t,
        allTipNames_fillShapeF idx rest]
end

mutual
/-- Shaping twice is shaping once. -/
theorem fillShapeN_idem (idx : List (String × ℕ)) :
    ∀ t : GNode, fillShapeN idx (fillShapeN idx t) = fillShapeN idx t
  | .node nm f => by simp [fillShapeN, fillShapeF_idem idx f]

/-- Forest version of `fillShapeN_idem`. -/
theorem fillShapeF_idem (idx : List (String × ℕ)) :
    ∀ f : GForest, fillShapeF idx (fillShapeF idx f) = fillShapeF idx f
  | .nil => rfl
  | .cons e t rest => by
      simp [fillShapeF, fillShapeN_idem idx t, fillShapeF_idem idx rest,
        allTipNames_fillShapeN idx true t, bitLen, setBits_length]
end

mutual
/-- Every edge below a shaped node carries an allocated bitset. -/
theorem fillShapeN_alloc (idx : List (String × ℕ)) :
    ∀ t : GNode, ∀ p ∈ edgesF (fillShapeN idx t).ch, p.1.bitset.isSome
  | .node nm f => by
      intro p hp
      simp only [fillShapeN, GNode.ch] at hp
      exact fillShapeF_alloc idx f p hp

/-- Every edge of a shaped forest carries an allocated bitset. -/
theorem fillShapeF_alloc (idx : List (String × ℕ)) :
    ∀ f : GForest, ∀ p ∈ edgesF (fillShapeF idx f), p.1.bitset.isSome
  | .nil => by intro p hp; simp [fillShapeF, edgesF] at hp
  | .cons e t rest => by
      intro p hp
      simp [fillShapeF, edgesF, edgesSub_eq] at hp
      rcases hp with h | h | h
      · subst h; simp
      · exact fillShapeN_alloc idx t p h
      · exact fillShapeF_alloc idx rest p h
end

/-- Entries of the shaped forest, read back through `gnth`. -/
theorem gnth_fillShapeF_elim (idx : List (String × ℕ)) :
    ∀ (f : GForest) (k : ℕ) (q : GEdge × GNode),
    gnth (fillShapeF idx f) k = some q →
    ∃ e t, gnth f k = some (e, t) ∧
      q = ({ e with bitset := some (setBits (List.replicate (bitLen e) false)
        (idxList idx (allTipNamesN true t))) }, fillShapeN idx t)
  | .nil, k, q, h => by simp [fillShapeF, gnth] at h
  | .cons e t rest, 0, q, h => by
      simp [fillShapeF, gnth] at h
      exact ⟨e, t, rfl, h.symm⟩
  | .cons e t rest, Nat.succ k, q, h => by
      simp only [fillShapeF, gnth] at h
      obtain ⟨e2, t2, h1, h2⟩ := gnth_fillShapeF_elim idx rest k q h
      exact ⟨e2, t2, by simpa [gnth] using h1, h2⟩

/-- Tip names of an indexed subtree occur in the forest's tip-name list. -/
theorem mem_allTipNamesList_of_gnth :
    ∀ (f : GForest) (k : ℕ) (e : GEdge) (t : GNode) (nm : String),
    gnth f k = some (e, t) → nm ∈ allTipNamesN true t → nm ∈ allTipNamesList f
  | .nil, k, e, t, nm, h, _ => by simp [gnth] at h
  | .cons e0 t0 rest, 0, e, t, nm, h, hnm => by
      simp [gnth] at h
      obtain ⟨he, ht⟩ := h
      subst he ht
      simp [allTipNamesList]
      exact Or.inl hnm
  | .cons e0 t0 rest, Nat.succ k, e, t, nm, h, hnm => by
      simp [gnth] at h
      have := mem_allTipNamesList_of_gnth rest k e t nm h hnm
      simp [allTipNamesList]
      exact Or.inr this

/-- A tip name of the forest lies below one of its entries. -/
theorem exists_gnth_of_mem_allTipNamesList :
    ∀ (f : GForest) (nm : String), nm ∈ allTipNamesList f →
    ∃ k e t, gnth f k = some (e, t) ∧ nm ∈ allTipNamesN true t
  | .nil, nm, h => by simp [allTipNamesList] at h
  | .cons e0 t0 rest, nm, h => by
      simp [allTipNamesList] at h
      rcases h with h | h
      · exact ⟨0, e0, t0, rfl, h⟩
      · obtain ⟨k, e, t, h1, h2⟩ := exists_gnth_of_mem_allTipNamesList rest nm h
        exact ⟨k + 1, e, t, by simpa [gnth] using h1, h2⟩

/-- Indexed entries of a forest belong to its pre-order edge list. -/
theorem gnth_mem_edgesF :
    ∀ (f : GForest) (k : ℕ) (p : GEdge × GNode), gnth f k = some p → p ∈ edgesF f
  | .nil, k, p, h => by simp [gnth] at h
  | .cons e0 t0 rest, 0, p, h => by
      simp [gnth] at h
      simp [edgesF, h.symm]
  | .cons e0 t0 rest, Nat.succ k, p, h => by
      simp [gnth] at h
      have := gnth_mem_edgesF rest k p h
      simp [edgesF]
      right; right; exact this

/-- With globally distinct tip names, tips below distinct entries of a
forest never share a name. -/
theorem allTipNames_gnth_disjoint :
    ∀ (f : GForest), (allTipNamesList f).Nodup →
    ∀ (k1 k2 : ℕ) (e1 : GEdge) (t1 : GNode) (e2 : GEdge) (t2 : GNode),
    k1 < k2 → gnth f k1 = some (e1, t1) → gnth f k2 = some (e2, t2) →
    ∀ nm, nm ∈ allTipNamesN true t1 → nm ∈ allTipNamesN true t2 → False
  | .nil, _, k1, k2, e1, t1, e2, t2, _, h1, _, _, _, _ => by simp [gnth] at h1
  | .cons e0 t0 rest, hnd, 0, k2, e1, t1, e2, t2, hlt, h1, h2, nm, hm1, hm2 => by
      simp [gnth] at h1
      obtain ⟨he, ht⟩ := h1
      subst he ht
      match k2, hlt with
      | Nat.succ k2, _ =>
          simp [gnth] at h2
          have hmem2 : nm ∈ allTipNamesList rest :=
            mem_allTipNamesList_of_gnth rest k2 e2 t2 nm h2 hm2
          have hdisj := List.disjoint_of_nodup_append (by simpa [allTipNamesList] using hnd)
          exact hdisj hm1 hmem2
  | .cons e0 t0 rest, hnd, Nat.succ k1, k2, e1, t1, e2, t2, hlt, h1, h2, nm, hm1, hm2 => by
      match k2, hlt with
      | Nat.succ k2, hlt =>
          simp [gnth] at h1 h2
          have hnd2 : (allTipNamesList rest).Nodup :=
            ((by simpa [allTipNamesList] using hnd : (allTipNamesN true t0 ++ allTipNamesList rest).Nodup)).of_append_right
          exact allTipNames_gnth_disjoint rest hnd2 k1 k2 e1 t1 e2 t2
            (Nat.lt_of_succ_lt_succ hlt) h1 h2 nm hm1 hm2

/-- A zeroed bit vector has no set bit. -/
theorem testBit_replicate_false (L o : ℕ) : testBit (List.replicate L false) o = false := by
  simp [testBit, List.getD, List.getElem?_replicate]
  split <;> rfl

/-- Entries of the shaped forest, built forward from `gnth`. -/
theorem gnth_fillShapeF_intro (idx : List (String × ℕ)) :
    ∀ (f : GForest) (k : ℕ) (e : GEdge) (t : GNode), gnth f k = some (e, t) →
    gnth (fillShapeF idx f) k =
      some ({ e with bitset := some (setBits (List.replicate (bitLen e) false)
        (idxList idx (allTipNamesN true t))) }, fillShapeN idx t)
  | .nil, k, e, t, h => by simp [gnth] at h
  | .cons e0 t0 rest, 0, e, t, h => by
      simp [gnth] at h
      obtain ⟨he, ht⟩ := h
      subst he ht
      simp [fillShapeF, gnth]
  | .cons e0 t0 rest, Nat.succ k, e, t, h => by
      simp [gnth] at h
      have := gnth_fillShapeF_intro idx rest k e t h
      simpa [fillShapeF, gnth] using this

/-- C5: on a tree with an initialized tip index (covering every tip name
injectively with the ordinals `0..N-1`, tip names distinct) and bitsets
allocated at length `N` on every edge, `UpdateBitSet` succeeds; afterwards
the bitsets of the root's incident edges partition the full set of tip
ordinals (their union is `{0..N-1}` and they are pairwise disjoint), and a
second `UpdateBitSet` returns the same tree unchanged. -/
theorem updateBitSet_partition_idempotent
    (nm : String) (f : GForest) (idx : List (String × ℕ)) (N : ℕ)
    (hroot : f.length ≠ 1)
    (hnodup : (AllTipNames (.node nm f)).Nodup)
    (hidx1 : ∀ s ∈ AllTipNames (.node nm f), ∃ o, assocFind idx s = some o ∧ o < N)
    (hidx2 : ∀ s1 s2 o, assocFind idx s1 = some o → assocFind idx s2 = some o → s1 = s2)
    (hidx3 : ∀ o, o < N → ∃ s, s ∈ AllTipNames (.node nm f) ∧ assocFind idx s = some o)
    (halloc : ∀ p ∈ edgesF f, ∃ bs, p.1.bitset = some bs ∧ bs.length = N) :
    UpdateBitSetN idx (.node nm f) = .ok (.node nm (fillShapeF idx f)) ∧
    (∀ o : ℕ, (∃ k e t bs, gnth (fillShapeF idx f) k = some (e, t) ∧
        e.bitset = some bs ∧ testBit bs o = true) ↔ o < N) ∧
    (∀ k1 k2 e1 t1 e2 t2 bs1 bs2 o, k1 ≠ k2 →
      gnth (fillShapeF idx f) k1 = some (e1, t1) →
      gnth (fillShapeF idx f) k2 = some (e2, t2) →
      e1.bitset = some bs1 → e2.bitset = some bs2 →
      ¬(testBit bs1 o = true ∧ testBit bs2 o = true)) ∧
    UpdateBitSetN idx (.node nm (fillShapeF idx f)) = .ok (.node nm (fillShapeF idx f)) := by
  have hAll : AllTipNames (.node nm f) = allTipNamesList f := by
    simp [AllTipNames, allTipNamesN, nneigh, GNode.ch, hroot]
  rw [hAll] at hnodup hidx1 hidx3
  have halloc2 : ∀ p ∈ edgesF f, p.1.bitset.isSome := by
    intro p hp
    obtain ⟨bs, hbs, _⟩ := halloc p hp
    simp [hbs]
  have hnames : ∀ s ∈ allTipNamesList f, ∃ o, assocFind idx s = some o := by
    intro s hs
    obtain ⟨o, ho, _⟩ := hidx1 s hs
    exact ⟨o, ho⟩
  have hbitLen : ∀ k e t, gnth f k = some (e, t) → bitLen e = N := by
    intro k e t hk
    obtain ⟨bs, hbs, hlen⟩ := halloc (e, t) (gnth_mem_edgesF f k (e, t) hk)
    have hbs2 : e.bitset = some bs := hbs
    simp [bitLen, hbs2, hlen]
  have hFok := fillRightF_ok idx f halloc2 hnames
  refine ⟨?_, ?_, ?_, ?_⟩
  · simp [UpdateBitSetN, hFok]
  · intro o
    constructor
    · rintro ⟨k, e', t', bs, hk, hbs, htest⟩
      obtain ⟨e, t, hkf, hq⟩ := gnth_fillShapeF_elim idx f k (e', t') hk
      have he' : e'.bitset = some (setBits (List.replicate (bitLen e) false)
          (idxList idx (allTipNamesN true t))) := by
        rw [show e' = ({ e with bitset := some (setBits (List.replicate (bitLen e) false)
          (idxList idx (allTipNamesN true t))) }) from congrArg Prod.fst hq]
      rw [he'] at hbs
      obtain rfl : bs = setBits (List.replicate (bitLen e) false)
          (idxList idx (allTipNamesN true t)) := by
        exact (Option.some.injEq _ _ ▸ hbs).symm
      rcases (testBit_setBits _ _ o).mp htest with hfalse | ⟨hmem, _⟩
      · rw [testBit_replicate_false] at hfalse
        exact absurd hfalse (by simp)
      · obtain ⟨s, hsmem, hsfind⟩ := List.mem_filterMap.mp hmem
        have hsl : s ∈ allTipNamesList f :=
          mem_allTipNamesList_of_gnth f k e t s hkf hsmem
        obtain ⟨o2, ho2, ho2N⟩ := hidx1 s hsl
        rw [hsfind] at ho2
        obtain rfl : o = o2 := by
          exact Option.some.injEq _ _ ▸ ho2
        exact ho2N
    · intro hoN
      obtain ⟨s, hsl, hsfind⟩ := hidx3 o hoN
      obtain ⟨k, e, t, hk, hsmem⟩ := exists_gnth_of_mem_allTipNamesList f s hsl
      refine ⟨k, _, _, _, gnth_fillShapeF_intro idx f k e t hk, rfl, ?_⟩
      refine (testBit_setBits _ _ o).mpr (Or.inr ⟨?_, ?_⟩)
      · exact List.mem_filterMap.mpr ⟨s, hsmem, hsfind⟩
      · rw [List.length_replicate, hbitLen k e t hk]
        exact hoN
  · intro k1 k2 e1' t1' e2' t2' bs1 bs2 o hne hk1 hk2 hbs1 hbs2 ⟨ht1, ht2⟩
    obtain ⟨e1, t1, hk1f, hq1⟩ := gnth_fillShapeF_elim idx f k1 (e1', t1') hk1
    obtain ⟨e2, t2, hk2f, hq2⟩ := gnth_fillShapeF_elim idx f k2 (e2', t2') hk2
    have he1 : e1'.bitset = some (setBits (List.replicate (bitLen e1) false)
        (idxList idx (allTipNamesN true t1))) := by
      rw [show e1' = ({ e1 with bitset := some (setBits (List.replicate (bitLen e1) false)
        (idxList idx (allTipNamesN true t1))) }) from congrArg Prod.fst hq1]
    have he2 : e2'.bitset = some (setBits (List.replicate (bitLen e2) false)
        (idxList idx (allTipNamesN true t2))) := by
      rw [show e2' = ({ e2 with bitset := some (setBits (List.replicate (bitLen e2) false)
        (idxList idx (allTipNamesN true t2))) }) from congrArg Prod.fst hq2]
    rw [he1] at hbs1
    rw [he2] at hbs2
    obtain rfl : bs1 = _ := (Option.some.injEq _ _ ▸ hbs1).symm
    obtain rfl : bs2 = _ := (Option.some.injEq _ _ ▸ hbs2).symm
    rcases (testBit_setBits _ _ o).mp ht1 with hf | ⟨hmem1, _⟩
    · rw [testBit_replicate_false] at hf
      exact absurd hf (by simp)
    rcases (testBit_setBits _ _ o).mp ht2 with hf | ⟨hmem2, _⟩
    · rw [testBit_replicate_false] at hf
      exact absurd hf (by simp)
    obtain ⟨s1, hs1mem, hs1find⟩ := List.mem_filterMap.mp hmem1
    obtain ⟨s2, hs2mem, hs2find⟩ := List.mem_filterMap.mp hmem2
    obtain rfl : s1 = s2 := hidx2 s1 s2 o hs1find hs2find
    rcases Nat.lt_or_ge k1 k2 with hlt | hge
    · exact allTipNames_gnth_disjoint f hnodup k1 k2 e1 t1 e2 t2 hlt hk1f hk2f s1 hs1mem hs2mem
    · have hlt2 : k2 < k1 := Nat.lt_of_le_of_ne hge (fun h => hne h.symm)
      exact allTipNames_gnth_disjoint f hnodup k2 k1 e2 t2 e1 t1 hlt2 hk2f hk1f s1 hs2mem hs1mem
  · have halloc3 := fillShapeF_alloc idx f
    have hnames3 : ∀ s ∈ allTipNamesList (fillShapeF idx f), ∃ o, assocFind idx s = some o := by
      intro s hs
      rw [allTipNames_fillShapeF idx f] at hs
      exact hnames s hs
    have hFok2 := fillRightF_ok idx (fillShapeF idx f) halloc3 hnames3
    simp [UpdateBitSetN, hFok2, fillShapeF_idem idx f]

/-- Concrete two-tip tree with allocated bitsets for the C5 witness. -/
def c5f : GForest :=
  .cons { NewEdgeE with bitset := some [false, false] } (.node "A" .nil)
    (.cons { NewEdgeE with bitset := some [false, false] } (.node "B" .nil) .nil)

/-- Concrete tip index for the C5 witness. -/
def c5idx : List (String × ℕ) := [("A", 0), ("B", 1)]

/-- Lookup characterization for the concrete C5 index. -/
theorem c5idx_char : ∀ (s : String) (o : ℕ), assocFind c5idx s = some o →
    (s = "A" ∧ o = 0) ∨ (s = "B" ∧ o = 1) := by
  intro s o h
  by_cases hA : "A" = s
  · subst hA
    simp [assocFind, c5idx] at h
    exact Or.inl ⟨rfl, h.symm⟩
  · by_cases hB : "B" = s
    · subst hB
      simp [assocFind, c5idx, hA] at h
      exact Or.inr ⟨rfl, h.symm⟩
    · simp [assocFind, c5idx, hA, hB] at h

/-- Witness for C5: the partition-and-idempotence theorem applied to the
concrete two-tip tree. -/
theorem updateBitSet_partition_idempotent_witness :
    UpdateBitSetN c5idx (.node "R" c5f) = .ok (.node "R" (fillShapeF c5idx c5f)) := by
  refine (updateBitSet_partition_idempotent "R" c5f c5idx 2 (by decide) (by decide)
    ?_ ?_ ?_ ?_).1
  · intro s hs
    have : s = "A" ∨ s = "B" := by
      simpa [AllTipNames, allTipNamesN, allTipNamesList, nneigh, GNode.ch,
        GForest.length, c5f] using hs
    rcases this with rfl | rfl
    · exact ⟨0, by decide, by decide⟩
    · exact ⟨1, by decide, by decide⟩
  · intro s1 s2 o h1 h2
    rcases c5idx_char s1 o h1 with ⟨rfl, rfl⟩ | ⟨rfl, rfl⟩ <;>
      rcases c5idx_char s2 _ h2 with ⟨rfl, h⟩ | ⟨rfl, h⟩ <;> first | rfl | omega
  · intro o ho
    interval_cases o
    · exact ⟨"A", by decide, by decide⟩
    · exact ⟨"B", by decide, by decide⟩
  · intro p hp
    have : p = ({ NewEdgeE with bitset := some [false, false] }, GNode.node "A" GForest.nil) ∨
        p = ({ NewEdgeE with bitset := some [false, false] }, GNode.node "B" GForest.nil) := by
      simpa [edgesF, edgesSub, c5f] using hp
    rcases this with rfl | rfl <;> exact ⟨[false, false], rfl, rfl⟩

/-- Attribute copy performed when `Resolve` reconnects a neighbor under a
fresh node (`ConnectNodes` then `SetLength`/`SetSupport`/`SetPValue` from
the removed edge). -/
def copyAttrE (e : GEdge) : GEdge :=
  { NewEdgeE with length := e.length, support := e.support, pvalue := e.pvalue }

/-- The zero-length, unsupported edge `Resolve` inserts between the current
node and each fresh grouping node. -/
def newZeroEdge : GEdge :=
  { NewEdgeE with length := 0, support := NIL_SUPPORT, pvalue := NIL_PVALUE }

/-- Number of live entries of a slot arena (a Go slice whose removed
elements we mark instead of shifting, so that the stack of pending ids in
`togroup` can keep addressing them). -/
def countSome (slots : List (Option (GEdge × GNode))) : ℕ :=
  (slots.filterMap id).length

/-- Initial `togroup` ordering of `resolveRecur`: the Go code scatters the
child edges with `togroup[perm[nb]] = edge nb` for a random permutation
`perm`; slot `k` of the child list therefore lands at position `perm[k]`,
i.e. position `j` holds the child `perm.indexOf j`.  A supplied list that is
not a permutation of `0..l-1` (which `rand.Perm` never produces) falls back
to the identity ordering, keeping the definition total. -/
def togroupInit (p : List ℕ) (l : ℕ) : List ℕ :=
  let cand := (List.range l).map (fun j => p.indexOf j)
  if cand.Perm (List.range l) then cand else List.range l

/-- The `togroup` order is always an enumeration of the child positions. -/
theorem togroupInit_perm (p : List ℕ) (l : ℕ) :
    (togroupInit p l).Perm (List.range l) := by
  unfold togroupInit
  by_cases h : (List.map (fun j => List.indexOf j p) (List.range l)).Perm (List.range l)
  · simpa [h] using h
  · simp [h]

/-- The grouping loop of `resolveRecur`: while the current node has more
than 3 neighbors, pop the two most recently scattered neighbors off the
`togroup` stack, reconnect them (with copied edge attributes) under a fresh
unnamed node, attach that node to the current node by a zero-length
unsupported edge, and push the new edge.  The stack holds slot ids into the
arena of the current node's children; popped children are blanked (Go
removes them from the neighbor slice) and the new child is appended.  The
two default branches are unreachable while the stack enumerates the live
slots. -/
def groupLoop (extra : ℕ) : List (Option (GEdge × GNode)) → List ℕ →
    List (Option (GEdge × GNode))
  | slots, stack =>
      if countSome slots + extra > 3 then
        match stack with
        | i1 :: i2 :: rest =>
            match slots.get? i1, slots.get? i2 with
            | some (some (ed1, c1)), some (some (ed2, c2)) =>
                groupLoop extra ((slots.set i1 none).set i2 none ++
                  [some (newZeroEdge, .node ""
                    (.cons (copyAttrE ed1) c1 (.cons (copyAttrE ed2) c2 .nil)))])
                  (slots.length :: rest)
            | _, _ => slots
        | _ => slots
      else slots
termination_by slots stack => stack.length

/-- One node's grouping step: scatter the children by the supplied
permutation and run the loop. -/
def groupNode (extra : ℕ) (p : List ℕ) (f : GForest) : GForest :=
  GForest.ofList (List.filterMap id
    (groupLoop extra (f.toList.map some)
      ((togroupInit p f.length).reverse)))

mutual
/-- `Tree.resolveRecur`: post order — resolve the child subtrees first,
then group the current node's neighbors two at a time while it has more
than 3 of them.  `extra` is 1 when the node has a came-from parent, 0 at
the root; the randomness source is threaded as a list of permutations, one
consumed per multifurcating node. -/
def resolveRecurN (extra : ℕ) (sup : List (List ℕ)) : GNode →
    GNode × List (List ℕ)
  | .node nm f =>
      match resolveRecurF sup f with
      | (f2, sup2) =>
          if f2.length + extra > 3 then
            match sup2 with
            | [] => (.node nm (groupNode extra [] f2), [])
            | p :: sup3 => (.node nm (groupNode extra p f2), sup3)
          else (.node nm f2, sup2)

/-- `resolveRecur` over the children of a node, left to right. -/
def resolveRecurF (sup : List (List ℕ)) : GForest → GForest × List (List ℕ)
  | .nil => (.nil, sup)
  | .cons e t rest =>
      match resolveRecurN 1 sup t with
      | (t2, sup2) =>
          match resolveRecurF sup2 rest with
          | (rest2, sup3) => (.cons e t2 rest2, sup3)
end

/-- `Tree.Resolve`: resolve from the root (no came-from parent). -/
def ResolveGo (sup : List (List ℕ)) (root : GNode) : GNode :=
  (resolveRecurN 0 sup root).1

mutual
/-- Every node of the tree, in its parent context, has at most 3
neighbors. -/
def degOkN (hasParent : Bool) : GNode → Bool
  | .node nm f => (nneigh hasParent (.node nm f) ≤ 3) && degOkF f

/-- Forest version of `degOkN`. -/
def degOkF : GForest → Bool
  | .nil => true
  | .cons _ t rest => degOkN true t && degOkF rest
end

/-- Attribute triple of an edge, as copied by `Resolve`. -/
def attrsOf (e : GEdge) : ℚ × ℚ × ℚ := (e.length, e.support, e.pvalue)

/-- The (attributes, right-node) pairs of all edges below a list of
children. -/
def attrsPairs (entries : List (GEdge × GNode)) : List ((ℚ × ℚ × ℚ) × GNode) :=
  (edgesF (GForest.ofList entries)).map (fun p => (attrsOf p.1, p.2))

/-- Tip names below a list of children. -/
def namesOfEntries (entries : List (GEdge × GNode)) : List String :=
  allTipNamesList (GForest.ofList entries)

/-- Pre-order edges of a rebuilt forest, as a flat map. -/
theorem edgesF_ofList : ∀ entries : List (GEdge × GNode),
    edgesF (GForest.ofList entries) =
      entries.flatMap (fun p => (p.1, p.2) :: edgesSub p.2)
  | [] => rfl
  | (e, t) :: rest => by
      simp [GForest.ofList, edgesF, edgesF_ofList rest, List.flatMap_cons]

/-- Tip names of a rebuilt forest, as a flat map. -/
theorem allTipNamesList_ofList : ∀ entries : List (GEdge × GNode),
    allTipNamesList (GForest.ofList entries) =
      entries.flatMap (fun p => allTipNamesN true p.2)
  | [] => rfl
  | (e, t) :: rest => by
      simp [GForest.ofList, allTipNamesList, allTipNamesList_ofList rest, List.flatMap_cons]

/-- Blanking one live slot removes exactly that occurrence. -/
theorem filterMap_set_none_perm {α : Type} : ∀ (l : List (Option α)) (i : ℕ) (q : α),
    l.get? i = some (some q) →
    (l.filterMap id).Perm (q :: (l.set i none).filterMap id)
  | [], i, q, h => by simp [List.get?] at h
  | x :: rest, 0, q, h => by
      have hx : x = some q := by simpa [List.get?] using h
      subst hx
      simp [List.filterMap_cons]
  | x :: rest, Nat.succ i, q, h => by
      have h2 : rest.get? i = some (some q) := h
      have ih := filterMap_set_none_perm rest i q h2
      match x with
      | none => simpa [List.filterMap_cons] using ih
      | some y =>
          simp only [List.filterMap_cons, List.set_cons_succ]
          exact (ih.cons y).trans (List.Perm.swap q y _)

/-- Index of any successful lookup is in range. -/
theorem lt_of_getq_some {α : Type} (l : List α) (i : ℕ) (v : α)
    (h : l.get? i = some v) : i < l.length := by
  rw [List.get?_eq_some] at h
  obtain ⟨h1, _⟩ := h
  exact h1

/-- Edge pairs contributed by one child entry: its own edge and every edge
below it. -/
def pairsOf (p : GEdge × GNode) : List ((ℚ × ℚ × ℚ) × GNode) :=
  (attrsOf p.1, p.2) :: (edgesSub p.2).map (fun r => (attrsOf r.1, r.2))

/-- `attrsPairs` decomposes entrywise. -/
theorem attrsPairs_eq : ∀ L : List (GEdge × GNode), attrsPairs L = L.flatMap pairsOf
  | [] => rfl
  | (e, t) :: rest => by
      have ih := attrsPairs_eq rest
      simp [attrsPairs, GForest.ofList, edgesF, List.flatMap_cons, pairsOf] at ih ⊢
      exact ih

/-- `namesOfEntries` decomposes entrywise. -/
theorem namesOfEntries_eq : ∀ L : List (GEdge × GNode),
    namesOfEntries L = L.flatMap (fun p => allTipNamesN true p.2)
  | [] => rfl
  | (e, t) :: rest => by
      have ih := namesOfEntries_eq rest
      simp [namesOfEntries, GForest.ofList, allTipNamesList, List.flatMap_cons] at ih ⊢
      simpa [namesOfEntries] using ih

/-- One unfolding of the grouping loop. -/
theorem groupLoop_unfold (extra : ℕ) (slots : List (Option (GEdge × GNode)))
    (stack : List ℕ) :
    groupLoop extra slots stack =
      if 3 < countSome slots + extra then
        match stack with
        | i1 :: i2 :: rest =>
            match slots.get? i1, slots.get? i2 with
            | some (some (ed1, c1)), some (some (ed2, c2)) =>
                groupLoop extra ((slots.set i1 none).set i2 none ++
                  [some (newZeroEdge, .node ""
                    (.cons (copyAttrE ed1) c1 (.cons (copyAttrE ed2) c2 .nil)))])
                  (slots.length :: rest)
            | _, _ => slots
        | _ => slots
      else slots := by
  rw [groupLoop.eq_def]

/-- Pairs of a regrouped first child survive under the fresh node. -/
theorem pairsOf_group_left (ed1 : GEdge) (c1 : GNode) (ed2 : GEdge) (c2 : GNode) :
    ∀ pr ∈ pairsOf (ed1, c1), pr ∈ pairsOf (newZeroEdge, GNode.node ""
      (.cons (copyAttrE ed1) c1 (.cons (copyAttrE ed2) c2 .nil))) := by
  intro pr hpr
  simp only [pairsOf, List.mem_cons] at hpr
  simp only [pairsOf, edgesSub, edgesF, attrsOf, copyAttrE, NewEdgeE, List.map_append,
    List.map_cons, List.mem_cons, List.mem_append]
  rcases hpr with rfl | h
  · exact Or.inr (Or.inl rfl)
  · exact Or.inr (Or.inr (Or.inl (by simpa [attrsOf] using h)))

/-- Pairs of a regrouped second child survive under the fresh node. -/
theorem pairsOf_group_right (ed1 : GEdge) (c1 : GNode) (ed2 : GEdge) (c2 : GNode) :
    ∀ pr ∈ pairsOf (ed2, c2), pr ∈ pairsOf (newZeroEdge, GNode.node ""
      (.cons (copyAttrE ed1) c1 (.cons (copyAttrE ed2) c2 .nil))) := by
  intro pr hpr
  simp only [pairsOf, List.mem_cons] at hpr
  simp only [pairsOf, edgesSub, edgesF, attrsOf, copyAttrE, NewEdgeE, List.map_append,
    List.map_cons, List.mem_cons, List.mem_append]
  rcases hpr with rfl | h
  · exact Or.inr (Or.inr (Or.inr (Or.inl rfl)))
  · exact Or.inr (Or.inr (Or.inr (Or.inr (by simpa [attrsOf] using h))))

/-- Every pair below the fresh node is a pair of one of the two grouped
children or carries the zero-length unsupported attributes. -/
theorem pairsOf_group_elim (ed1 : GEdge) (c1 : GNode) (ed2 : GEdge) (c2 : GNode) :
    ∀ pr ∈ pairsOf (newZeroEdge, GNode.node ""
      (.cons (copyAttrE ed1) c1 (.cons (copyAttrE ed2) c2 .nil))),
    pr.1 = ((0 : ℚ), NIL_SUPPORT, NIL_PVALUE) ∨
      pr ∈ pairsOf (ed1, c1) ∨ pr ∈ pairsOf (ed2, c2) := by
  intro pr hpr
  simp only [pairsOf, edgesSub, edgesF, attrsOf, copyAttrE, NewEdgeE, List.map_append,
    List.map_cons, List.mem_cons, List.mem_append] at hpr
  rcases hpr with rfl | h | h | h | h
  · exact Or.inl rfl
  · exact Or.inr (Or.inl (by simp [pairsOf, attrsOf, h]))
  · exact Or.inr (Or.inl (by simp [pairsOf, attrsOf]; right; simpa [attrsOf] using h))
  · exact Or.inr (Or.inr (by simp [pairsOf, attrsOf, h]))
  · exact Or.inr (Or.inr (by simp [pairsOf, attrsOf]; right; simpa [attrsOf] using h))

/-- Tip names below the fresh grouping node. -/
theorem names_group (ed1 : GEdge) (c1 : GNode) (ed2 : GEdge) (c2 : GNode) :
    allTipNamesN true (GNode.node ""
      (.cons (copyAttrE ed1) c1 (.cons (copyAttrE ed2) c2 .nil))) =
    allTipNamesN true c1 ++ allTipNamesN true c2 := by
  simp [allTipNamesN, nneigh, GNode.ch, GForest.length, allTipNamesList]

/-- The fresh grouping node has degree 3 and well-bounded subtrees. -/
theorem degOk_group (ed1 : GEdge) (c1 : GNode) (ed2 : GEdge) (c2 : GNode)
    (h1 : degOkN true c1 = true) (h2 : degOkN true c2 = true) :
    degOkN true (GNode.node ""
      (.cons (copyAttrE ed1) c1 (.cons (copyAttrE ed2) c2 .nil))) = true := by
  simp [degOkN, degOkF, nneigh, GNode.ch, GForest.length, h1, h2]



/-- Full behavior of the grouping loop when the `togroup` stack enumerates
the live slots: the loop stops exactly at degree 3, keeps every
(attributes, subtree) pair of the original children reachable, introduces
only zero-length unsupported fresh edges, permutes no tip name away, and
preserves subtree degree bounds. -/
theorem groupLoop_spec (extra : ℕ) (hextra : extra ≤ 1) :
    ∀ (stack : List ℕ) (slots : List (Option (GEdge × GNode))),
    stack.Nodup →
    (∀ i ∈ stack, ∃ q, slots.get? i = some (some q)) →
    (∀ i q, slots.get? i = some (some q) → i ∈ stack) →
    countSome slots = stack.length →
    (3 < countSome slots + extra →
      countSome (groupLoop extra slots stack) + extra = 3) ∧
    (¬ 3 < countSome slots + extra → groupLoop extra slots stack = slots) ∧
    (∀ pr ∈ attrsPairs (slots.filterMap id),
      pr ∈ attrsPairs ((groupLoop extra slots stack).filterMap id)) ∧
    (∀ pr ∈ attrsPairs ((groupLoop extra slots stack).filterMap id),
      pr ∈ attrsPairs (slots.filterMap id) ∨
        pr.1 = ((0 : ℚ), NIL_SUPPORT, NIL_PVALUE)) ∧
    (namesOfEntries ((groupLoop extra slots stack).filterMap id)).Perm
      (namesOfEntries (slots.filterMap id)) ∧
    ((∀ p ∈ slots.filterMap id, degOkN true p.2 = true) →
      ∀ p ∈ (groupLoop extra slots stack).filterMap id, degOkN true p.2 = true) := by
  suffices H : ∀ (n : ℕ) (stack : List ℕ), stack.length = n →
      ∀ (slots : List (Option (GEdge × GNode))),
      stack.Nodup →
      (∀ i ∈ stack, ∃ q, slots.get? i = some (some q)) →
      (∀ i q, slots.get? i = some (some q) → i ∈ stack) →
      countSome slots = stack.length →
      (3 < countSome slots + extra →
        countSome (groupLoop extra slots stack) + extra = 3) ∧
      (¬ 3 < countSome slots + extra → groupLoop extra slots stack = slots) ∧
      (∀ pr ∈ attrsPairs (slots.filterMap id),
        pr ∈ attrsPairs ((groupLoop extra slots stack).filterMap id)) ∧
      (∀ pr ∈ attrsPairs ((groupLoop extra slots stack).filterMap id),
        pr ∈ attrsPairs (slots.filterMap id) ∨
          pr.1 = ((0 : ℚ), NIL_SUPPORT, NIL_PVALUE)) ∧
      (namesOfEntries ((groupLoop extra slots stack).filterMap id)).Perm
        (namesOfEntries (slots.filterMap id)) ∧
      ((∀ p ∈ slots.filterMap id, degOkN true p.2 = true) →
        ∀ p ∈ (groupLoop extra slots stack).filterMap id, degOkN true p.2 = true) by
    intro stack
    exact H stack.length stack rfl
  intro n
  induction n using Nat.strong_induction_on with
  | _ n ihn =>
  intro stack hlen slots hnd hfwd hbwd hcnt
  by_cases hbig : 3 < countSome slots + extra
  case neg =>
    have hres : groupLoop extra slots stack = slots := by
      rw [groupLoop_unfold, if_neg hbig]
    rw [hres]
    exact ⟨fun h => absurd h hbig, fun _ => rfl, fun pr h => h,
      fun pr h => Or.inl h, List.Perm.refl _, fun h => h⟩
  case pos =>
    have hlen3 : 3 ≤ stack.length := by rw [← hcnt]; omega
    cases stack with
    | nil => simp at hlen3
    | cons i1 stack1 =>
    cases stack1 with
    | nil => simp at hlen3
    | cons i2 rest =>
    obtain ⟨⟨ed1, c1⟩, hq1⟩ := hfwd i1 (by simp)
    obtain ⟨⟨ed2, c2⟩, hq2⟩ := hfwd i2 (by simp)
    have hne12 : i1 ≠ i2 := by
      have := List.nodup_cons.mp hnd
      exact fun h => this.1 (by simp [h])
    have hndr : rest.Nodup := ((List.nodup_cons.mp hnd).2).of_cons
    have hi1r : i1 ∉ rest := fun h => (List.nodup_cons.mp hnd).1 (by simp [h])
    have hi2r : i2 ∉ rest := (List.nodup_cons.mp ((List.nodup_cons.mp hnd).2)).1
    set mid0 := slots.set i1 none with hmid0
    set mid := mid0.set i2 none with hmid
    set n2 : GNode := .node "" (.cons (copyAttrE ed1) c1 (.cons (copyAttrE ed2) c2 .nil))
      with hn2
    set slots2 := mid ++ [some (newZeroEdge, n2)] with hslots2
    have hstep : groupLoop extra slots (i1 :: i2 :: rest) =
        groupLoop extra slots2 (slots.length :: rest) := by
      rw [groupLoop_unfold, if_pos hbig]
      simp only [hq1, hq2]
    have hq2b : mid0.get? i2 = some (some (ed2, c2)) := by
      rw [hmid0, List.get?_set_ne _ _ hne12]
      exact hq2
    have hpA : (slots.filterMap id).Perm ((ed1, c1) :: mid0.filterMap id) :=
      filterMap_set_none_perm slots i1 _ hq1
    have hpB : (mid0.filterMap id).Perm ((ed2, c2) :: mid.filterMap id) :=
      filterMap_set_none_perm mid0 i2 _ hq2b
    have hpOld : (slots.filterMap id).Perm ((ed1, c1) :: (ed2, c2) :: mid.filterMap id) :=
      hpA.trans (hpB.cons _)
    have hfmNew : slots2.filterMap id = mid.filterMap id ++ [(newZeroEdge, n2)] := by
      rw [hslots2, List.filterMap_append]
      rfl
    have hmidlen : mid.length = slots.length := by
      rw [hmid, hmid0, List.length_set, List.length_set]
    have hcntOld : countSome slots = (mid.filterMap id).length + 2 := by
      have := hpOld.length_eq
      simpa [countSome] using this
    have hcntNew : countSome slots2 = (mid.filterMap id).length + 1 := by
      simp [countSome, hfmNew]
    have hnd2 : (slots.length :: rest).Nodup := by
      rw [List.nodup_cons]
      refine ⟨?_, hndr⟩
      intro hmem
      obtain ⟨q, hq⟩ := hfwd slots.length (by simp [hmem])
      exact absurd (lt_of_getq_some slots _ _ hq) (by omega)
    have hfwd2 : ∀ i ∈ slots.length :: rest, ∃ q, slots2.get? i = some (some q) := by
      intro i hi
      rcases List.mem_cons.mp hi with rfl | hir
      · refine ⟨(newZeroEdge, n2), ?_⟩
        rw [hslots2, ← hmidlen, List.get?_concat_length]
      · obtain ⟨q, hq⟩ := hfwd i (by simp [hir])
        have hine1 : i1 ≠ i := fun h => hi1r (h ▸ hir)
        have hine2 : i2 ≠ i := fun h => hi2r (h ▸ hir)
        refine ⟨q, ?_⟩
        rw [hslots2, List.get?_append (by rw [hmidlen]; exact lt_of_getq_some slots _ _ hq),
          hmid, List.get?_set_ne _ _ hine2, hmid0, List.get?_set_ne _ _ hine1]
        exact hq
    have hbwd2 : ∀ i q, slots2.get? i = some (some q) → i ∈ slots.length :: rest := by
      intro i q hq
      rcases Nat.lt_trichotomy i mid.length with hlt | heq | hgt
      · rw [hslots2, List.get?_append hlt] at hq
        by_cases hii1 : i = i1
        · subst hii1
          rw [hmid, List.get?_set_ne _ _ (Ne.symm hne12), hmid0,
            List.get?_set_eq, hq1] at hq
          simp at hq
        · by_cases hii2 : i = i2
          · subst hii2
            rw [hmid, List.get?_set_eq, hq2b] at hq
            simp at hq
          · rw [hmid, List.get?_set_ne _ _ (fun h => hii2 h.symm), hmid0,
              List.get?_set_ne _ _ (fun h => hii1 h.symm)] at hq
            have hmem := hbwd i q hq
            rcases List.mem_cons.mp hmem with rfl | hmem2
            · exact absurd rfl hii1
            · rcases List.mem_cons.mp hmem2 with rfl | hmem3
              · exact absurd rfl hii2
              · exact List.mem_cons_of_mem _ hmem3
      · rw [hmidlen] at heq
        simp [heq]
      · exfalso
        have hlenle : slots2.length ≤ i := by
          rw [hslots2, List.length_append]
          simp only [List.length_cons, List.length_nil]
          omega
        rw [List.get?_eq_none.mpr hlenle] at hq
        exact Option.noConfusion hq
    have hcnt2 : countSome slots2 = (slots.length :: rest).length := by
      rw [hcntNew]
      have hx : (mid.filterMap id).length + 2 = (i1 :: i2 :: rest).length := by
        rw [← hcntOld]; exact hcnt
      simp at hx ⊢
      omega
    have hn2eq : n = rest.length + 2 := by
      simpa using hlen.symm
    have ihall := ihn (rest.length + 1) (by omega) (slots.length :: rest) (by simp)
      slots2 hnd2 hfwd2 hbwd2 hcnt2
    obtain ⟨ihA, ihA2, ihB, ihC, ihD, ihE⟩ := ihall
    have hmem_mid_old : ∀ p, p ∈ mid.filterMap id → p ∈ slots.filterMap id := by
      intro p hp
      exact hpOld.mem_iff.mpr (by simp [hp])
    have hpairs_fwd : ∀ pr ∈ attrsPairs (slots.filterMap id),
        pr ∈ attrsPairs (slots2.filterMap id) := by
      intro pr hpr
      rw [attrsPairs_eq, List.mem_flatMap] at hpr
      obtain ⟨entry, hentry, hprin⟩ := hpr
      rw [attrsPairs_eq, List.mem_flatMap]
      have hentry2 := hpOld.mem_iff.mp hentry
      rcases List.mem_cons.mp hentry2 with rfl | h2
      · exact ⟨(newZeroEdge, n2), by simp [hfmNew], pairsOf_group_left ed1 c1 ed2 c2 pr hprin⟩
      · rcases List.mem_cons.mp h2 with rfl | h3
        · exact ⟨(newZeroEdge, n2), by simp [hfmNew], pairsOf_group_right ed1 c1 ed2 c2 pr hprin⟩
        · exact ⟨entry, by simp [hfmNew, h3], hprin⟩
    have hpairs_bwd : ∀ pr ∈ attrsPairs (slots2.filterMap id),
        pr ∈ attrsPairs (slots.filterMap id) ∨
          pr.1 = ((0 : ℚ), NIL_SUPPORT, NIL_PVALUE) := by
      intro pr hpr
      rw [attrsPairs_eq, List.mem_flatMap] at hpr
      obtain ⟨entry, hentry, hprin⟩ := hpr
      rw [hfmNew] at hentry
      rcases List.mem_append.mp hentry with hmidm | hnew
      · exact Or.inl (by
          rw [attrsPairs_eq, List.mem_flatMap]
          exact ⟨entry, hmem_mid_old entry hmidm, hprin⟩)
      · have hent : entry = (newZeroEdge, n2) := by simpa using hnew
        subst hent
        rcases pairsOf_group_elim ed1 c1 ed2 c2 pr hprin with hz | h1 | h1
        · exact Or.inr hz
        · exact Or.inl (by
            rw [attrsPairs_eq, List.mem_flatMap]
            exact ⟨(ed1, c1), hpOld.mem_iff.mpr (List.mem_cons_self _ _), h1⟩)
        · exact Or.inl (by
            rw [attrsPairs_eq, List.mem_flatMap]
            exact ⟨(ed2, c2), hpOld.mem_iff.mpr
              (List.mem_cons_of_mem _ (List.mem_cons_self _ _)), h1⟩)
    have hnames_step : (namesOfEntries (slots2.filterMap id)).Perm
        (namesOfEntries (slots.filterMap id)) := by
      rw [namesOfEntries_eq, namesOfEntries_eq, hfmNew]
      have h1 : ((mid.filterMap id ++ [(newZeroEdge, n2)]).flatMap
          (fun p => allTipNamesN true p.2)) =
          (mid.filterMap id).flatMap (fun p => allTipNamesN true p.2) ++
            (allTipNamesN true c1 ++ allTipNamesN true c2) := by
        rw [List.flatMap_append]
        simp [hn2, names_group]
      rw [h1]
      have h2 : ((slots.filterMap id).flatMap (fun p => allTipNamesN true p.2)).Perm
          ((allTipNamesN true c1 ++ allTipNamesN true c2) ++
            (mid.filterMap id).flatMap (fun p => allTipNamesN true p.2)) := by
        have h3 := List.Perm.flatMap_right (fun p : GEdge × GNode => allTipNamesN true p.2) hpOld
        simpa [List.flatMap_cons, List.append_assoc] using h3
      exact (List.perm_append_comm).trans h2.symm
    have hdeg_step : (∀ p ∈ slots.filterMap id, degOkN true p.2 = true) →
        ∀ p ∈ slots2.filterMap id, degOkN true p.2 = true := by
      intro hdeg p hp
      rw [hfmNew] at hp
      rcases List.mem_append.mp hp with hmidm | hnew
      · exact hdeg p (hmem_mid_old p hmidm)
      · have hpn : p = (newZeroEdge, n2) := by simpa using hnew
        subst hpn
        exact degOk_group ed1 c1 ed2 c2
          (hdeg (ed1, c1) (hpOld.mem_iff.mpr (List.mem_cons_self _ _)))
          (hdeg (ed2, c2) (hpOld.mem_iff.mpr
            (List.mem_cons_of_mem _ (List.mem_cons_self _ _))))
    rw [hstep]
    refine ⟨?_, fun h => absurd hbig h, ?_, ?_, ?_, ?_⟩
    · intro _
      by_cases hbig2 : 3 < countSome slots2 + extra
      · exact ihA hbig2
      · rw [ihA2 hbig2]
        rw [hcntNew]
        rw [hcntOld] at hbig
        omega
    · intro pr hpr
      exact ihB pr (hpairs_fwd pr hpr)
    · intro pr hpr
      rcases ihC pr hpr with h | h
      · exact hpairs_bwd pr h
      · exact Or.inr h
    · exact ihD.trans hnames_step
    · intro hdeg
      exact ihE (hdeg_step hdeg)

/-- Round trip from list to forest. -/
theorem toList_ofList : ∀ L : List (GEdge × GNode), (GForest.ofList L).toList = L
  | [] => rfl
  | (e, t) :: rest => by simp [GForest.ofList, GForest.toList, toList_ofList rest]

/-- Round trip from forest to list. -/
theorem ofList_toList : ∀ f : GForest, GForest.ofList f.toList = f
  | .nil => rfl
  | .cons e t rest => by simp [GForest.ofList, GForest.toList, ofList_toList rest]

/-- Forest length through `toList`. -/
theorem length_toList : ∀ f : GForest, f.toList.length = f.length
  | .nil => rfl
  | .cons e t rest => by simp [GForest.toList, GForest.length, length_toList rest]; omega

/-- Forest length through `ofList`. -/
theorem length_ofList : ∀ L : List (GEdge × GNode), (GForest.ofList L).length = L.length
  | [] => rfl
  | (e, t) :: rest => by simp [GForest.ofList, GForest.length, length_ofList rest]; omega

/-- `filterMap id` cancels `map some`. -/
theorem filterMap_id_map_some {α : Type} : ∀ l : List α, (l.map some).filterMap id = l
  | [] => rfl
  | x :: rest => by simp [filterMap_id_map_some rest]

/-- `degOkF` elementwise. -/
theorem degOkF_iff : ∀ f : GForest, degOkF f = true ↔ ∀ p ∈ f.toList, degOkN true p.2 = true
  | .nil => by simp [degOkF, GForest.toList]
  | .cons e t rest => by
      simp only [degOkF, GForest.toList, Bool.and_eq_true, List.mem_cons]
      rw [degOkF_iff rest]
      constructor
      · rintro ⟨h1, h2⟩ p hp
        rcases hp with rfl | hp
        · exact h1
        · exact h2 p hp
      · intro h
        exact ⟨h (e, t) (Or.inl rfl), fun p hp => h p (Or.inr hp)⟩

/-- Behavior of one node's grouping step on the already-resolved children:
stops at degree 3, is the identity below degree 4, preserves the
(attributes, subtree) pairs and tip names, introduces only zero-length
unsupported edges, and keeps subtree degree bounds. -/
theorem groupNode_spec (extra : ℕ) (hextra : extra ≤ 1) (p : List ℕ) (f : GForest) :
    (3 < f.length + extra → (groupNode extra p f).length + extra = 3) ∧
    (¬ 3 < f.length + extra → groupNode extra p f = f) ∧
    (∀ pr ∈ attrsPairs f.toList, pr ∈ attrsPairs (groupNode extra p f).toList) ∧
    (∀ pr ∈ attrsPairs (groupNode extra p f).toList,
      pr ∈ attrsPairs f.toList ∨ pr.1 = ((0 : ℚ), NIL_SUPPORT, NIL_PVALUE)) ∧
    (allTipNamesList (groupNode extra p f)).Perm (allTipNamesList f) ∧
    (degOkF f = true → degOkF (groupNode extra p f) = true) := by
  have hperm0 : ((togroupInit p f.length).reverse).Perm (List.range f.length) :=
    (List.reverse_perm _).trans (togroupInit_perm p f.length)
  have hlen0 : (f.toList.map some).length = f.length := by
    rw [List.length_map, length_toList]
  have hnd0 : ((togroupInit p f.length).reverse).Nodup :=
    hperm0.nodup_iff.mpr (List.nodup_range _)
  have hfwd0 : ∀ i ∈ (togroupInit p f.length).reverse,
      ∃ q, (f.toList.map some).get? i = some (some q) := by
    intro i hi
    have hilt : i < f.length := by
      have := hperm0.mem_iff.mp hi
      simpa using this
    have hlt : i < f.toList.length := by rw [length_toList]; exact hilt
    refine ⟨f.toList.get ⟨i, hlt⟩, ?_⟩
    rw [List.get?_map, List.get?_eq_get hlt]
    rfl
  have hbwd0 : ∀ i q, (f.toList.map some).get? i = some (some q) →
      i ∈ (togroupInit p f.length).reverse := by
    intro i q hq
    have := lt_of_getq_some _ _ _ hq
    rw [hlen0] at this
    exact hperm0.mem_iff.mpr (by simpa using this)
  have hcnt0 : countSome (f.toList.map some) = ((togroupInit p f.length).reverse).length := by
    rw [countSome, filterMap_id_map_some, length_toList, hperm0.length_eq, List.length_range]
  have hfm0 : (f.toList.map some).filterMap id = f.toList := filterMap_id_map_some _
  obtain ⟨hA, hA2, hB, hC, hD, hE⟩ := groupLoop_spec extra hextra
    ((togroupInit p f.length).reverse) (f.toList.map some) hnd0 hfwd0 hbwd0 hcnt0
  have hcntf : countSome (f.toList.map some) = f.length := by
    rw [countSome, hfm0, length_toList]
  refine ⟨?_, ?_, ?_, ?_, ?_, ?_⟩
  · intro hbig
    have := hA (by rw [hcntf]; exact hbig)
    rw [groupNode, length_ofList]
    rw [countSome] at this
    exact this
  · intro hsmall
    have := hA2 (by rw [hcntf]; exact hsmall)
    rw [groupNode, this, hfm0, ofList_toList]
  · intro pr hpr
    have := hB pr (by rw [hfm0]; exact hpr)
    rw [groupNode, toList_ofList]
    exact this
  · intro pr hpr
    rw [groupNode, toList_ofList] at hpr
    rcases hC pr hpr with h | h
    · exact Or.inl (by rw [hfm0] at h; exact h)
    · exact Or.inr h
  · have := hD
    rw [hfm0] at this
    have h2 : allTipNamesList (groupNode extra p f) =
        namesOfEntries ((groupLoop extra (f.toList.map some)
          ((togroupInit p f.length).reverse)).filterMap id) := by
      rw [groupNode, namesOfEntries]
    rw [h2]
    have h3 : namesOfEntries f.toList = allTipNamesList f := by
      rw [namesOfEntries, ofList_toList]
    rw [← h3]
    exact this
  · intro hdeg
    rw [degOkF_iff] at hdeg ⊢
    rw [groupNode, toList_ofList]
    apply hE
    rw [hfm0]
    exact hdeg

/-- Unfolding of `allTipNamesN` at an internal node. -/
theorem allTipNamesN_node_ne (hp : Bool) (nm : String) (f : GForest)
    (h : nneigh hp (.node nm f) ≠ 1) :
    allTipNamesN hp (.node nm f) = allTipNamesList f := by
  rw [allTipNamesN, if_neg (by simpa using h)]

/-- Unfolding of `allTipNamesN` at a tip. -/
theorem allTipNamesN_node_one (hp : Bool) (nm : String) (f : GForest)
    (h : nneigh hp (.node nm f) = 1) :
    allTipNamesN hp (.node nm f) = [nm] := by
  rw [allTipNamesN, if_pos (by simpa using h)]

/-- The grouped arm of `resolveRecurN`: a node whose (already resolved)
children plus came-from parent exceed 3 neighbors is regrouped to exactly
3 neighbors, preserving names and degree bounds. -/
theorem resolveNode_group_arm (hp : Bool) (extra : ℕ)
    (hpe : (if hp then 1 else 0 : ℕ) = extra)
    (nm : String) (f f2 : GForest) (p : List ℕ)
    (hnm : (allTipNamesList f2).Perm (allTipNamesList f))
    (hdeg : degOkF f2 = true)
    (hlen : f2.length = f.length)
    (hbig : 3 < f2.length + extra) :
    (allTipNamesN hp (.node nm (groupNode extra p f2))).Perm
      (allTipNamesN hp (.node nm f)) ∧
    degOkN hp (.node nm (groupNode extra p f2)) = true ∧
    (GNode.ch (.node nm (groupNode extra p f2))).length =
      (if 3 < (GNode.ch (.node nm f)).length + extra
        then 3 - extra else (GNode.ch (.node nm f)).length) := by
  have hex1 : extra ≤ 1 := by rw [← hpe]; cases hp <;> simp
  have hnn : ∀ (s : String) (g : GForest),
      nneigh hp (.node s g) = g.length + extra := by
    intro s g
    simp only [nneigh, GNode.ch, hpe]
  obtain ⟨hG1, _, _, _, hG5, hG6⟩ := groupNode_spec extra hex1 p f2
  have h3 : (groupNode extra p f2).length + extra = 3 := hG1 hbig
  refine ⟨?_, ?_, ?_⟩
  · rw [allTipNamesN_node_ne hp nm _ (by rw [hnn]; omega),
      allTipNamesN_node_ne hp nm f (by rw [hnn]; omega)]
    exact hG5.trans hnm
  · simp only [degOkN, Bool.and_eq_true, decide_eq_true_eq]
    refine ⟨?_, hG6 hdeg⟩
    rw [hnn]
    omega
  · simp only [GNode.ch]
    rw [if_pos (by omega)]
    omega

/-- The pass-through arm of `resolveRecurN`: a node with at most 3
neighbors is left untouched by the grouping step. -/
theorem resolveNode_same_arm (hp : Bool) (extra : ℕ)
    (hpe : (if hp then 1 else 0 : ℕ) = extra)
    (nm : String) (f f2 : GForest)
    (hnm : (allTipNamesList f2).Perm (allTipNamesList f))
    (hdeg : degOkF f2 = true)
    (hlen : f2.length = f.length)
    (hsmall : ¬ 3 < f2.length + extra) :
    (allTipNamesN hp (.node nm f2)).Perm (allTipNamesN hp (.node nm f)) ∧
    degOkN hp (.node nm f2) = true ∧
    (GNode.ch (.node nm f2)).length =
      (if 3 < (GNode.ch (.node nm f)).length + extra
        then 3 - extra else (GNode.ch (.node nm f)).length) := by
  have hnn : ∀ (s : String) (g : GForest),
      nneigh hp (.node s g) = g.length + extra := by
    intro s g
    simp only [nneigh, GNode.ch, hpe]
  refine ⟨?_, ?_, ?_⟩
  · by_cases hone : f2.length + extra = 1
    · rw [allTipNamesN_node_one hp nm f2 (by rw [hnn]; omega),
        allTipNamesN_node_one hp nm f (by rw [hnn]; omega)]
    · rw [allTipNamesN_node_ne hp nm f2 (by rw [hnn]; omega),
        allTipNamesN_node_ne hp nm f (by rw [hnn]; omega)]
      exact hnm
  · simp only [degOkN, Bool.and_eq_true, decide_eq_true_eq]
    refine ⟨?_, hdeg⟩
    rw [hnn]
    omega
  · simp only [GNode.ch]
    rw [if_neg (by omega)]
    exact hlen

mutual
/-- Through `resolveRecurN` the tip names are a permutation of the
original ones, every node of the result has at most 3 neighbors, and the
child count is capped at `3 - extra` where `extra` counts the came-from
parent. -/
theorem resolveRecurN_spec : ∀ (hp : Bool) (sup : List (List ℕ)) (t : GNode),
    (allTipNamesN hp
        (resolveRecurN (if hp then 1 else 0) sup t).1).Perm
      (allTipNamesN hp t) ∧
    degOkN hp (resolveRecurN (if hp then 1 else 0) sup t).1 = true ∧
    ((resolveRecurN (if hp then 1 else 0) sup t).1.ch).length =
      (if 3 < (t.ch).length + (if hp then 1 else 0)
        then 3 - (if hp then 1 else 0) else (t.ch).length)
  | hp, sup, .node nm f => by
      obtain ⟨hnm, hdeg, hlen⟩ := resolveRecurF_spec sup f
      rcases hres : resolveRecurF sup f with ⟨f2, sup2⟩
      rw [hres] at hnm hdeg hlen
      have hnm2 : (allTipNamesList f2).Perm (allTipNamesList f) := by
        simpa using hnm
      have hdeg2 : degOkF f2 = true := by simpa using hdeg
      have hlen2 : f2.length = f.length := by simpa using hlen
      simp only [resolveRecurN, hres]
      by_cases hbig : 3 < f2.length + (if hp then 1 else 0)
      · rw [if_pos (by simpa using hbig)]
        cases sup2 with
        | nil =>
            exact resolveNode_group_arm hp _ rfl nm f f2 [] hnm2 hdeg2 hlen2 hbig
        | cons p sup3 =>
            exact resolveNode_group_arm hp _ rfl nm f f2 p hnm2 hdeg2 hlen2 hbig
      · rw [if_neg (by simpa using hbig)]
        exact resolveNode_same_arm hp _ rfl nm f f2 hnm2 hdeg2 hlen2 hbig

/-- Forest version of `resolveRecurN_spec`: names are permuted, degrees
bounded, and the number of children is unchanged. -/
theorem resolveRecurF_spec : ∀ (sup : List (List ℕ)) (f : GForest),
    (allTipNamesList (resolveRecurF sup f).1).Perm (allTipNamesList f) ∧
    degOkF (resolveRecurF sup f).1 = true ∧
    (resolveRecurF sup f).1.length = f.length
  | sup, .nil => by simp [resolveRecurF, allTipNamesList, degOkF]
  | sup, .cons e t rest => by
      obtain ⟨hn1, hd1, hl1⟩ := resolveRecurN_spec true sup t
      rw [show (if (true : Bool) then 1 else 0 : ℕ) = 1 from rfl] at hn1 hd1 hl1
      rcases hrt : resolveRecurN 1 sup t with ⟨t2, sup2⟩
      rw [hrt] at hn1 hd1 hl1
      obtain ⟨hn2, hd2, hl2⟩ := resolveRecurF_spec sup2 rest
      rcases hrr : resolveRecurF sup2 rest with ⟨rest2, sup3⟩
      rw [hrr] at hn2 hd2 hl2
      have hl2a : rest2.length = rest.length := by simpa using hl2
      simp only [resolveRecurF, hrt, hrr]
      refine ⟨?_, ?_, ?_⟩
      · simp only [allTipNamesList]
        exact hn1.append hn2
      · simp only [degOkF, Bool.and_eq_true]
        exact ⟨hd1, hd2⟩
      · simp only [GForest.length]
        omega
end

/-- Concrete degree-5 star for exercising `Resolve`: root `R` with tips
`A`..`E` on edges of length 1..5. -/
def c7forest : GForest :=
  .cons (mkE 1 NIL_SUPPORT) (.node "A" .nil)
    (.cons (mkE 2 NIL_SUPPORT) (.node "B" .nil)
      (.cons (mkE 3 NIL_SUPPORT) (.node "C" .nil)
        (.cons (mkE 4 NIL_SUPPORT) (.node "D" .nil)
          (.cons (mkE 5 NIL_SUPPORT) (.node "E" .nil) .nil))))

/-- **C7.** `Resolve` bounds every node of the result at 3 neighbors and
keeps the multiset of tip names; a node whose children plus came-from
parent exceed 3 neighbors (e.g. degree 5) ends with exactly 3 neighbors,
every (attribute triple, subtree) pair hanging below the node is carried
into the regrouped node, every pair of the regrouped node either comes
from the original children or sits on a newly inserted edge with length 0
and unset support and p-value. -/
theorem resolve_degree3_names_attrs
    (sup sup2 : List (List ℕ)) (root : GNode) (hp : Bool)
    (nm : String) (f : GForest)
    (hbig : 3 < f.length + (if hp then 1 else 0)) :
    degOkN false (ResolveGo sup root) = true ∧
    (AllTipNames (ResolveGo sup root)).Perm (AllTipNames root) ∧
    (((resolveRecurN (if hp then 1 else 0) sup2 (.node nm f)).1.ch).length
        + (if hp then 1 else 0) = 3) ∧
    (∀ pr ∈ attrsPairs (resolveRecurF sup2 f).1.toList,
        pr ∈ attrsPairs
          ((resolveRecurN (if hp then 1 else 0) sup2 (.node nm f)).1.ch).toList) ∧
    (∀ pr ∈ attrsPairs
          ((resolveRecurN (if hp then 1 else 0) sup2 (.node nm f)).1.ch).toList,
        pr ∈ attrsPairs (resolveRecurF sup2 f).1.toList ∨
          pr.1 = ((0 : ℚ), NIL_SUPPORT, NIL_PVALUE)) := by
  obtain ⟨hra, hrb, _⟩ := resolveRecurN_spec false sup root
  set x := (if hp then 1 else 0 : ℕ) with hx
  have hx1 : x ≤ 1 := by rw [hx]; cases hp <;> simp
  obtain ⟨hn3a, hn3b, hn3c⟩ := resolveRecurN_spec hp sup2 (.node nm f)
  rw [← hx] at hn3c
  obtain ⟨hfa, hfb, hfc⟩ := resolveRecurF_spec sup2 f
  rcases hres : resolveRecurF sup2 f with ⟨f2, s2⟩
  rw [hres] at hfa hfb hfc
  have hfa2 : (allTipNamesList f2).Perm (allTipNamesList f) := by simpa using hfa
  have hfb2 : degOkF f2 = true := by simpa using hfb
  have hfc2 : f2.length = f.length := by simpa using hfc
  have hbig2 : 3 < f2.length + x := by rw [hfc2]; exact hbig
  refine ⟨?_, ?_, ?_, ?_, ?_⟩
  · exact hrb
  · exact hra
  · rw [hn3c]
    simp only [GNode.ch]
    rw [if_pos hbig]
    omega
  · simp only [resolveRecurN, hres]
    rw [if_pos (by simpa using hbig2)]
    obtain ⟨_, _, hG3, _, _, _⟩ :=
      groupNode_spec x hx1 (match s2 with | [] => [] | p :: _ => p) f2
    cases s2 with
    | nil =>
        simp only [GNode.ch]
        exact hG3
    | cons p sup3 =>
        simp only [GNode.ch]
        exact hG3
  · simp only [resolveRecurN, hres]
    rw [if_pos (by simpa using hbig2)]
    obtain ⟨_, _, _, hG4, _, _⟩ :=
      groupNode_spec x hx1 (match s2 with | [] => [] | p :: _ => p) f2
    cases s2 with
    | nil =>
        simp only [GNode.ch]
        exact hG4
    | cons p sup3 =>
        simp only [GNode.ch]
        exact hG4

/-- Witness for C7: on the concrete degree-5 star the hypothesis holds and
the resolved root ends with exactly 3 children. -/
theorem resolve_degree3_names_attrs_witness :
    3 < c7forest.length + (if (false : Bool) then 1 else 0) ∧
    ((resolveRecurN (if (false : Bool) then 1 else 0) []
        (.node "R" c7forest)).1.ch).length + (if (false : Bool) then 1 else 0) = 3 := by
  refine ⟨by decide, ?_⟩
  exact (resolve_degree3_names_attrs [] [] (.node "R" c7forest) false "R"
    c7forest (by decide)).2.2.1

/-- The body of the `hamMinLoop` iteration, named for reasoning. -/
def hamStep (ntips : ℕ) (col : Int) (st : DP) (p : ℕ × (GEdge × GNode)) : DP :=
  let r : Int := p.1
  let h0 := sub16 (add16 (w16 (NumTipsRightVal p.2.1)) (st.cmat r col)) (st.imat r col)
  let h := fold16 ntips h0
  let st1 := { st with ham := upd2 st.ham r col h }
  if h < st1.md r then
    { st1 with md := upd1 st1.md r h, mde := updE st1.mde r col }
  else st1

/-- `hamMinLoop` as a fold of `hamStep` over the indexed edges. -/
theorem hamMinLoop_eq (l : List (GEdge × GNode)) (ntips : ℕ) (col : Int)
    (st : DP) :
    hamMinLoop l ntips col st = (l.enumFrom 0).foldl (hamStep ntips col) st := rfl

/-- `hamStep` never touches the `I` and `C` matrices. -/
theorem hamStep_ic (ntips : ℕ) (col : Int) (st : DP) (p : ℕ × (GEdge × GNode)) :
    (hamStep ntips col st p).imat = st.imat ∧
    (hamStep ntips col st p).cmat = st.cmat := by
  unfold hamStep
  dsimp only
  split <;> exact ⟨rfl, rfl⟩

/-- The Hamming fold never touches the `I` and `C` matrices. -/
theorem hamFold_ic (ntips : ℕ) (col : Int) :
    ∀ (l : List (GEdge × GNode)) (n : ℕ) (st : DP),
    ((l.enumFrom n).foldl (hamStep ntips col) st).imat = st.imat ∧
    ((l.enumFrom n).foldl (hamStep ntips col) st).cmat = st.cmat
  | [], n, st => ⟨rfl, rfl⟩
  | a :: tl, n, st => by
      rw [List.enumFrom_cons, List.foldl_cons]
      obtain ⟨h1, h2⟩ := hamFold_ic ntips col tl (n + 1) (hamStep ntips col st (n, a))
      obtain ⟨h3, h4⟩ := hamStep_ic ntips col st (n, a)
      exact ⟨h1.trans h3, h2.trans h4⟩

/-- The Hamming fold leaves every other column of the Hamming matrix
alone. -/
theorem hamFold_presJ (ntips : ℕ) (col : Int) :
    ∀ (l : List (GEdge × GNode)) (n : ℕ) (st : DP) (r' j : Int), j ≠ col →
    ((l.enumFrom n).foldl (hamStep ntips col) st).ham r' j = st.ham r' j
  | [], n, st, r', j, hj => rfl
  | a :: tl, n, st, r', j, hj => by
      rw [List.enumFrom_cons, List.foldl_cons]
      rw [hamFold_presJ ntips col tl (n + 1) _ r' j hj]
      unfold hamStep
      dsimp only
      split <;> simp [upd2, hj]

/-- The Hamming fold starting at index `n` leaves every row below `n`
alone. -/
theorem hamFold_presR (ntips : ℕ) (col : Int) :
    ∀ (l : List (GEdge × GNode)) (n : ℕ) (st : DP) (r' : Int), r' < (n : Int) →
    ((l.enumFrom n).foldl (hamStep ntips col) st).ham r' col = st.ham r' col ∧
    ((l.enumFrom n).foldl (hamStep ntips col) st).md r' = st.md r' ∧
    ((l.enumFrom n).foldl (hamStep ntips col) st).mde r' = st.mde r'
  | [], n, st, r', hr => ⟨rfl, rfl, rfl⟩
  | a :: tl, n, st, r', hr => by
      rw [List.enumFrom_cons, List.foldl_cons]
      obtain ⟨h1, h2, h3⟩ := hamFold_presR ntips col tl (n + 1) (hamStep ntips col st (n, a)) r'
        (by omega)
      refine ⟨h1.trans ?_, h2.trans ?_, h3.trans ?_⟩ <;>
        · unfold hamStep
          dsimp only
          split <;> simp [upd2, upd1, updE] <;> omega

/-- `hamStep` changes `min_dist` and `min_dist_edge` only at its own row. -/
theorem hamStep_out (ntips : ℕ) (col : Int) (st : DP) (p : ℕ × (GEdge × GNode))
    (r' : Int) (hne : r' ≠ (p.1 : Int)) :
    (hamStep ntips col st p).md r' = st.md r' ∧
    (hamStep ntips col st p).mde r' = st.mde r' := by
  unfold hamStep
  dsimp only
  split <;> simp [upd1, updE, hne]

/-- `hamStep` at its own row: the Hamming entry becomes the folded
distance, the minimum is lowered on strict improvement, and the argmin is
set to the current column exactly then. -/
theorem hamStep_self (ntips : ℕ) (col : Int) (st : DP) (m : ℕ)
    (a : GEdge × GNode) :
    (hamStep ntips col st (m, a)).ham (↑m) col =
      fold16 ntips (sub16 (add16 (w16 (NumTipsRightVal a.1))
        (st.cmat (↑m) col)) (st.imat (↑m) col)) ∧
    (hamStep ntips col st (m, a)).md (↑m) =
      min (st.md (↑m)) (fold16 ntips (sub16 (add16 (w16 (NumTipsRightVal a.1))
        (st.cmat (↑m) col)) (st.imat (↑m) col))) ∧
    (fold16 ntips (sub16 (add16 (w16 (NumTipsRightVal a.1))
        (st.cmat (↑m) col)) (st.imat (↑m) col)) < st.md (↑m) →
      (hamStep ntips col st (m, a)).mde (↑m) = col) ∧
    (¬ fold16 ntips (sub16 (add16 (w16 (NumTipsRightVal a.1))
        (st.cmat (↑m) col)) (st.imat (↑m) col)) < st.md (↑m) →
      (hamStep ntips col st (m, a)).mde (↑m) = st.mde (↑m)) := by
  unfold hamStep
  dsimp only
  split <;> rename_i hcond
  · refine ⟨by simp [upd2], ?_, fun _ => by simp [updE], fun hno => absurd hcond hno⟩
    simp [upd1]
    omega
  · refine ⟨by simp [upd2], ?_, fun hyes => absurd hyes hcond, fun _ => rfl⟩
    simp only [DP.md] at hcond ⊢
    omega

/-- One full pass of the Hamming fold at row `n + k`: the Hamming entry is
the folded `uint16` distance computed from the `I`/`C` entries, and the
minimum distance and its argmin are updated by a strict comparison. -/
theorem hamFold_row (ntips : ℕ) (col : Int) :
    ∀ (l : List (GEdge × GNode)) (n : ℕ) (st : DP) (k : ℕ) (hk : k < l.length),
    ((l.enumFrom n).foldl (hamStep ntips col) st).ham (↑(n + k)) col =
      fold16 ntips (sub16 (add16 (w16 (NumTipsRightVal (l.get ⟨k, hk⟩).1))
        (st.cmat (↑(n + k)) col)) (st.imat (↑(n + k)) col)) ∧
    ((l.enumFrom n).foldl (hamStep ntips col) st).md (↑(n + k)) =
      min (st.md (↑(n + k)))
        (fold16 ntips (sub16 (add16 (w16 (NumTipsRightVal (l.get ⟨k, hk⟩).1))
          (st.cmat (↑(n + k)) col)) (st.imat (↑(n + k)) col))) ∧
    (fold16 ntips (sub16 (add16 (w16 (NumTipsRightVal (l.get ⟨k, hk⟩).1))
        (st.cmat (↑(n + k)) col)) (st.imat (↑(n + k)) col)) < st.md (↑(n + k)) →
      ((l.enumFrom n).foldl (hamStep ntips col) st).mde (↑(n + k)) = col) ∧
    (¬ fold16 ntips (sub16 (add16 (w16 (NumTipsRightVal (l.get ⟨k, hk⟩).1))
        (st.cmat (↑(n + k)) col)) (st.imat (↑(n + k)) col)) < st.md (↑(n + k)) →
      ((l.enumFrom n).foldl (hamStep ntips col) st).mde (↑(n + k)) =
        st.mde (↑(n + k)))
  | a :: tl, n, st, 0, hk => by
      rw [List.enumFrom_cons, List.foldl_cons]
      simp only [Nat.add_zero, List.get]
      obtain ⟨p1, p2, p3⟩ := hamFold_presR ntips col tl (n + 1)
        (hamStep ntips col st (n, a)) (↑n) (by push_cast; omega)
      rw [p1, p2, p3]
      exact hamStep_self ntips col st n a
  | a :: tl, n, st, k + 1, hk => by
      rw [List.enumFrom_cons, List.foldl_cons]
      obtain ⟨q1, q2, q3, q4⟩ := hamFold_row ntips col tl (n + 1)
        (hamStep ntips col st (n, a)) k (by simpa using Nat.lt_of_succ_lt_succ hk)
      obtain ⟨i1, i2⟩ := hamStep_ic ntips col st (n, a)
      obtain ⟨o1, o2⟩ := hamStep_out ntips col st (n, a) (↑(n + (k + 1)))
        (by simp; omega)
      have hrow : n + 1 + k = n + (k + 1) := by omega
      rw [hrow, i1, i2] at q1
      rw [hrow, i1, i2, o1] at q2
      rw [hrow, i1, i2, o1] at q3
      rw [hrow, i1, i2, o1, o2] at q4
      exact ⟨q1, q2, q3, q4⟩

/-- Unfold one step of the zeroing loop at the top index. -/
theorem zeroColsLoop_succ (n : ℕ) (col : Int) (st : DP) :
    zeroColsLoop (n + 1) col st =
      { zeroColsLoop n col st with
          imat := upd2 (zeroColsLoop n col st).imat (↑n) col 0,
          cmat := upd2 (zeroColsLoop n col st).cmat (↑n) col 0 } := by
  unfold zeroColsLoop
  simp only [bind_pure_comp, List.bind_eq_flatMap]
  rw [List.range_succ, List.flatMap_append, List.foldl_append]
  rfl

/-- The zeroing loop never touches Hamming, min-dist or argmin. -/
theorem zeroColsLoop_pres (col : Int) (st : DP) : ∀ n : ℕ,
    (zeroColsLoop n col st).ham = st.ham ∧
    (zeroColsLoop n col st).md = st.md ∧
    (zeroColsLoop n col st).mde = st.mde
  | 0 => ⟨rfl, rfl, rfl⟩
  | n + 1 => by
      rw [zeroColsLoop_succ]
      exact zeroColsLoop_pres col st n

/-- The zeroing loop leaves every other `I`/`C` column alone. -/
theorem zeroColsLoop_presJ (col : Int) (st : DP) : ∀ (n : ℕ) (r' j : Int),
    j ≠ col →
    (zeroColsLoop n col st).imat r' j = st.imat r' j ∧
    (zeroColsLoop n col st).cmat r' j = st.cmat r' j
  | 0, r', j, hj => ⟨rfl, rfl⟩
  | n + 1, r', j, hj => by
      rw [zeroColsLoop_succ]
      obtain ⟨h1, h2⟩ := zeroColsLoop_presJ col st n r' j hj
      constructor <;> simp [upd2, hj, h1, h2]

/-- The zeroing loop zeroes its column at every row below the bound. -/
theorem zeroColsLoop_val (col : Int) (st : DP) : ∀ (n k : ℕ), k < n →
    (zeroColsLoop n col st).imat (↑k) col = 0 ∧
    (zeroColsLoop n col st).cmat (↑k) col = 0
  | n + 1, k, hk => by
      rw [zeroColsLoop_succ]
      by_cases hkn : k = n
      · subst hkn
        constructor <;> simp [upd2]
      · obtain ⟨h1, h2⟩ := zeroColsLoop_val col st n k (by omega)
        constructor <;> simp [upd2, h1, h2] <;> omega

/-- Unfold one step of the column-sum loop at the top index. -/
theorem addColsLoop_succ (n : ℕ) (col col2 : Int) (st : DP) :
    addColsLoop (n + 1) col col2 st =
      { addColsLoop n col col2 st with
          imat := upd2 (addColsLoop n col col2 st).imat (↑n) col
            (add16 ((addColsLoop n col col2 st).imat (↑n) col)
              ((addColsLoop n col col2 st).imat (↑n) col2)),
          cmat := upd2 (addColsLoop n col col2 st).cmat (↑n) col
            (add16 ((addColsLoop n col col2 st).cmat (↑n) col)
              ((addColsLoop n col col2 st).cmat (↑n) col2)) } := by
  unfold addColsLoop
  simp only [bind_pure_comp, List.bind_eq_flatMap]
  rw [List.range_succ, List.flatMap_append, List.foldl_append]
  rfl

/-- The column-sum loop never touches Hamming, min-dist or argmin. -/
theorem addColsLoop_pres (col col2 : Int) (st : DP) : ∀ n : ℕ,
    (addColsLoop n col col2 st).ham = st.ham ∧
    (addColsLoop n col col2 st).md = st.md ∧
    (addColsLoop n col col2 st).mde = st.mde
  | 0 => ⟨rfl, rfl, rfl⟩
  | n + 1 => by
      rw [addColsLoop_succ]
      exact addColsLoop_pres col col2 st n

/-- The column-sum loop leaves every other `I`/`C` column alone. -/
theorem addColsLoop_presJ (col col2 : Int) (st : DP) : ∀ (n : ℕ) (r' j : Int),
    j ≠ col →
    (addColsLoop n col col2 st).imat r' j = st.imat r' j ∧
    (addColsLoop n col col2 st).cmat r' j = st.cmat r' j
  | 0, r', j, hj => ⟨rfl, rfl⟩
  | n + 1, r', j, hj => by
      rw [addColsLoop_succ]
      obtain ⟨h1, h2⟩ := addColsLoop_presJ col col2 st n r' j hj
      constructor <;> simp [upd2, hj, h1, h2]

/-- The column-sum loop up to `n` leaves rows at and above `n` alone. -/
theorem addColsLoop_rowsGe (col col2 : Int) (st : DP) : ∀ (n : ℕ) (r' : Int),
    (n : Int) ≤ r' →
    (addColsLoop n col col2 st).imat r' col = st.imat r' col ∧
    (addColsLoop n col col2 st).cmat r' col = st.cmat r' col
  | 0, r', hr => ⟨rfl, rfl⟩
  | n + 1, r', hr => by
      rw [addColsLoop_succ]
      obtain ⟨h1, h2⟩ := addColsLoop_rowsGe col col2 st n r' (by omega)
      constructor <;> simp [upd2, h1, h2] <;> omega

/-- The column-sum loop adds the second column into the first, rowwise,
in `uint16` arithmetic. -/
theorem addColsLoop_val (col col2 : Int) (st : DP) (hcc : col2 ≠ col) :
    ∀ (n k : ℕ), k < n →
    (addColsLoop n col col2 st).imat (↑k) col =
      add16 (st.imat (↑k) col) (st.imat (↑k) col2) ∧
    (addColsLoop n col col2 st).cmat (↑k) col =
      add16 (st.cmat (↑k) col) (st.cmat (↑k) col2)
  | n + 1, k, hk => by
      rw [addColsLoop_succ]
      by_cases hkn : k = n
      · subst hkn
        obtain ⟨g1, g2⟩ := addColsLoop_rowsGe col col2 st k (↑k)
          (by omega)
        obtain ⟨j1, j2⟩ := addColsLoop_presJ col col2 st k (↑k) col2 hcc
        constructor <;> simp [upd2, g1, g2, j1, j2]
      · obtain ⟨h1, h2⟩ := addColsLoop_val col col2 st hcc n k (by omega)
        constructor <;> simp [upd2, h1, h2] <;> omega

/-- A fold by `min` never exceeds its start value. -/
theorem foldl_min_le : ∀ (l : List ℕ) (b : ℕ), l.foldl min b ≤ b
  | [], b => le_refl b
  | a :: tl, b => le_trans (foldl_min_le tl (min b a)) (min_le_left b a)

/-- A fold by `min` never exceeds a member of the list. -/
theorem foldl_min_le_mem : ∀ (l : List ℕ) (b x : ℕ), x ∈ l → l.foldl min b ≤ x
  | a :: tl, b, x, hx => by
      rcases List.mem_cons.mp hx with rfl | hx
      · exact le_trans (foldl_min_le tl (min b x)) (min_le_right b x)
      · exact foldl_min_le_mem tl (min b a) x hx

mutual
/-- All bootstrap-edge ids visited by `update_i_c_post_order_boot_tree`
starting from edge `edgeId` into node `t`. -/
def allColsN : Int → GNode → List Int
  | edgeId, .node _ f => edgeId :: allColsF f

/-- Forest version of `allColsN`. -/
def allColsF : GForest → List Int
  | .nil => []
  | .cons e t rest => allColsN e.eid t ++ allColsF rest
end

mutual
/-- The bootstrap-edge ids whose `I`/`C` columns are written (internal
edges only; terminal columns are read-only in the bootstrap pass). -/
def intColsN : Int → GNode → List Int
  | edgeId, .node _ f => (if f.length == 0 then [] else [edgeId]) ++ intColsF f

/-- Forest version of `intColsN`. -/
def intColsF : GForest → List Int
  | .nil => []
  | .cons e t rest => intColsN e.eid t ++ intColsF rest
end

mutual
/-- Written columns are visited columns. -/
theorem intColsN_subset : ∀ (edgeId : Int) (t : GNode) (j : Int),
    j ∈ intColsN edgeId t → j ∈ allColsN edgeId t
  | edgeId, .node nm f, j, hj => by
      simp only [intColsN, allColsN, List.mem_append, List.mem_cons] at hj ⊢
      rcases hj with hj | hj
      · split at hj <;> simp at hj
        exact Or.inl hj
      · exact Or.inr (intColsF_subset f j hj)

/-- Forest version of `intColsN_subset`. -/
theorem intColsF_subset : ∀ (f : GForest) (j : Int),
    j ∈ intColsF f → j ∈ allColsF f
  | .cons e t rest, j, hj => by
      simp only [intColsF, allColsF, List.mem_append] at hj ⊢
      rcases hj with hj | hj
      · exact Or.inl (intColsN_subset e.eid t j hj)
      · exact Or.inr (intColsF_subset rest j hj)
end

/-- Effect of a phase of the bootstrap pass on a fixed reference row `r`
(with tips-right value `tr`): columns outside `colsW` keep their `I`/`C`
entries, columns outside `colsA` keep their Hamming entries, every visited
column holds the folded distance computed from the final `I`/`C` entries,
the minimum distance is the fold of the visited Hamming entries into the
incoming minimum, and the argmin column is recorded on strict improvement
and kept otherwise. -/
def BootInv (ntips tr : ℕ) (r : ℕ) (colsA colsW : List Int)
    (st stN : DP) : Prop :=
  (∀ j : Int, j ∉ colsW → ∀ r' : Int,
    stN.imat r' j = st.imat r' j ∧ stN.cmat r' j = st.cmat r' j) ∧
  (∀ j : Int, j ∉ colsA → ∀ r' : Int, stN.ham r' j = st.ham r' j) ∧
  (∀ j ∈ colsA, stN.ham (↑r) j =
    fold16 ntips (sub16 (add16 (w16 tr) (stN.cmat (↑r) j)) (stN.imat (↑r) j))) ∧
  stN.md (↑r) = (colsA.map (fun j => stN.ham (↑r) j)).foldl min (st.md (↑r)) ∧
  (stN.md (↑r) < st.md (↑r) →
    stN.mde (↑r) ∈ colsA ∧ stN.ham (↑r) (stN.mde (↑r)) = stN.md (↑r)) ∧
  (stN.md (↑r) = st.md (↑r) → stN.mde (↑r) = st.mde (↑r))

/-- The identity phase satisfies the invariant with no visited columns. -/
theorem BootInv_refl (ntips tr : ℕ) (r : ℕ) (colsW : List Int) (st : DP) :
    BootInv ntips tr r [] colsW st st := by
  refine ⟨fun j hj r' => ⟨rfl, rfl⟩, fun j hj r' => rfl, by simp, rfl,
    fun h => absurd h (lt_irrefl _), fun _ => rfl⟩

/-- The zeroing phase satisfies the invariant: it writes only its own
column's `I`/`C` entries. -/
theorem BootInv_zero (ntips tr : ℕ) (r : ℕ) (nE : ℕ) (col : Int) (st : DP) :
    BootInv ntips tr r [] [col] st (zeroColsLoop nE col st) := by
  obtain ⟨z1, z2, z3⟩ := zeroColsLoop_pres col st nE
  refine ⟨?_, fun j hj r' => by rw [z1], by simp, by simp [z2], ?_, ?_⟩
  · intro j hj r'
    exact zeroColsLoop_presJ col st nE r' j (by simpa using hj)
  · rw [z2]
    exact fun h => absurd h (lt_irrefl _)
  · rw [z3]
    exact fun _ => rfl

/-- The column-sum phase satisfies the invariant: it writes only the
parent column's `I`/`C` entries. -/
theorem BootInv_add (ntips tr : ℕ) (r : ℕ) (nE : ℕ) (col col2 : Int)
    (st : DP) :
    BootInv ntips tr r [] [col] st (addColsLoop nE col col2 st) := by
  obtain ⟨z1, z2, z3⟩ := addColsLoop_pres col col2 st nE
  refine ⟨?_, fun j hj r' => by rw [z1], by simp, by simp [z2], ?_, ?_⟩
  · intro j hj r'
    exact addColsLoop_presJ col col2 st nE r' j (by simpa using hj)
  · rw [z2]
    exact fun h => absurd h (lt_irrefl _)
  · rw [z3]
    exact fun _ => rfl

/-- The Hamming phase satisfies the invariant: it visits exactly its own
column and writes no `I`/`C` entry. -/
theorem BootInv_ham (refEdges : List (GEdge × GNode)) (ntips tr : ℕ)
    (r : ℕ) (hr : r < refEdges.length)
    (htr : NumTipsRightVal (refEdges.get ⟨r, hr⟩).1 = tr) (col : Int)
    (st : DP) :
    BootInv ntips tr r [col] [] st (hamMinLoop refEdges ntips col st) := by
  rw [hamMinLoop_eq]
  obtain ⟨hi, hc⟩ := hamFold_ic ntips col refEdges 0 st
  obtain ⟨hham, hmd, hmde1, hmde2⟩ := hamFold_row ntips col refEdges 0 st r hr
  rw [Nat.zero_add] at hham hmd hmde1 hmde2
  rw [htr] at hham hmd hmde1 hmde2
  refine ⟨?_, ?_, ?_, ?_, ?_, ?_⟩
  · intro j hj r'
    exact ⟨congrFun (congrFun hi r') j, congrFun (congrFun hc r') j⟩
  · intro j hj r'
    exact hamFold_presJ ntips col refEdges 0 st r' j (by simpa using hj)
  · intro j hj
    rcases List.mem_singleton.mp hj with rfl
    rw [hi, hc]
    exact hham
  · simp only [List.map_cons, List.map_nil, List.foldl_cons, List.foldl_nil]
    rw [hham, hmd]
  · intro hlt
    rw [hmd] at hlt ⊢
    have hv : fold16 ntips (sub16 (add16 (w16 tr)
        (st.cmat (↑r) col)) (st.imat (↑r) col)) < st.md (↑r) := by omega
    refine ⟨by simp [hmde1 hv], ?_⟩
    rw [hmde1 hv, hham]
    omega
  · intro heq
    rw [hmd] at heq
    have hv : ¬ fold16 ntips (sub16 (add16 (w16 tr)
        (st.cmat (↑r) col)) (st.imat (↑r) col)) < st.md (↑r) := by omega
    exact hmde2 hv

/-- Sequential composition of two bootstrap-pass phases, when the second
phase revisits none of the first phase's columns. -/
theorem BootInv_comp (ntips tr : ℕ) (r : ℕ) (A1 W1 A2 W2 : List Int)
    (st st1 stN : DP)
    (h1 : BootInv ntips tr r A1 W1 st st1)
    (h2 : BootInv ntips tr r A2 W2 st1 stN)
    (hpres : ∀ j ∈ A1, j ∉ A2 ∧ j ∉ W2) :
    BootInv ntips tr r (A1 ++ A2) (W1 ++ W2) st stN := by
  obtain ⟨a1, a2, a3, a4, a5, a6⟩ := h1
  obtain ⟨b1, b2, b3, b4, b5, b6⟩ := h2
  have hmapA1 : A1.map (fun j => stN.ham (↑r) j) =
      A1.map (fun j => st1.ham (↑r) j) :=
    List.map_congr_left (fun j hj => b2 j (hpres j hj).1 (↑r))
  refine ⟨?_, ?_, ?_, ?_, ?_, ?_⟩
  · intro j hj r'
    rw [List.mem_append] at hj
    push_neg at hj
    exact ⟨(b1 j hj.2 r').1.trans (a1 j hj.1 r').1,
      (b1 j hj.2 r').2.trans (a1 j hj.1 r').2⟩
  · intro j hj r'
    rw [List.mem_append] at hj
    push_neg at hj
    exact (b2 j hj.2 r').trans (a2 j hj.1 r')
  · intro j hj
    rcases List.mem_append.mp hj with hj1 | hj2
    · obtain ⟨hp1, hp2⟩ := hpres j hj1
      rw [b2 j hp1 (↑r), (b1 j hp2 (↑r)).1, (b1 j hp2 (↑r)).2]
      exact a3 j hj1
    · exact b3 j hj2
  · rw [List.map_append, List.foldl_append, hmapA1, ← a4, ← b4]
  · intro hlt
    have hle2 : stN.md (↑r) ≤ st1.md (↑r) := by
      rw [b4]; exact foldl_min_le _ _
    rcases lt_or_eq_of_le hle2 with hlt2 | heq2
    · obtain ⟨hm, hh⟩ := b5 hlt2
      exact ⟨List.mem_append.mpr (Or.inr hm), hh⟩
    · have hmde := b6 heq2
      rw [heq2] at hlt
      obtain ⟨hm, hh⟩ := a5 hlt
      refine ⟨List.mem_append.mpr (Or.inl (by rw [hmde]; exact hm)), ?_⟩
      rw [hmde, b2 _ (hpres _ hm).1 (↑r), hh, ← heq2]
  · intro heq
    have hle2 : stN.md (↑r) ≤ st1.md (↑r) := by
      rw [b4]; exact foldl_min_le _ _
    have hle1 : st1.md (↑r) ≤ st.md (↑r) := by
      rw [a4]; exact foldl_min_le _ _
    have heq2 : stN.md (↑r) = st1.md (↑r) := by omega
    have heq1 : st1.md (↑r) = st.md (↑r) := by omega
    exact (b6 heq2).trans (a6 heq1)

/-- The invariant only depends on the visited columns up to permutation
and on the written columns up to membership. -/
theorem BootInv_congr (ntips tr : ℕ) (r : ℕ) (A A' W W' : List Int)
    (st stN : DP) (hA : A.Perm A') (hW : ∀ j : Int, j ∈ W ↔ j ∈ W')
    (h : BootInv ntips tr r A W st stN) :
    BootInv ntips tr r A' W' st stN := by
  obtain ⟨a1, a2, a3, a4, a5, a6⟩ := h
  refine ⟨?_, ?_, ?_, ?_, ?_, a6⟩
  · intro j hj r'
    exact a1 j (fun hc => hj ((hW j).mp hc)) r'
  · intro j hj r'
    exact a2 j (fun hc => hj (hA.mem_iff.mp hc)) r'
  · intro j hj
    exact a3 j (hA.mem_iff.mpr hj)
  · rw [a4]
    exact ((hA.map (fun j => stN.ham (↑r) j)).foldl_eq (st.md (↑r))).symm.symm
  · intro hlt
    obtain ⟨hm, hh⟩ := a5 hlt
    exact ⟨hA.mem_iff.mp hm, hh⟩

mutual
/-- The full effect of `update_i_c_post_order_boot_tree` on a fixed
reference row, provided the visited bootstrap-edge ids are distinct. -/
theorem bootN_inv (refEdges : List (GEdge × GNode)) (ntips tr : ℕ) (r : ℕ)
    (hr : r < refEdges.length)
    (htr : NumTipsRightVal (refEdges.get ⟨r, hr⟩).1 = tr) :
    ∀ (edgeId : Int) (t : GNode) (st : DP),
    (allColsN edgeId t).Nodup →
    BootInv ntips tr r (allColsN edgeId t) (intColsN edgeId t) st
      (update_i_c_post_order_boot_tree refEdges ntips edgeId t st)
  | edgeId, .node nm .nil, st, hnd =>
      BootInv_ham refEdges ntips tr r hr htr edgeId st
  | edgeId, .node nm (.cons e1 t1 r1), st, hnd => by
      have hndF : (edgeId :: allColsF (.cons e1 t1 r1)).Nodup := hnd
      have hz := BootInv_zero ntips tr r refEdges.length edgeId st
      have hf := bootF_inv refEdges ntips tr r hr htr edgeId (.cons e1 t1 r1)
        (zeroColsLoop refEdges.length edgeId st) hndF
      have hh := BootInv_ham refEdges ntips tr r hr htr edgeId
        (bootChildren refEdges ntips edgeId (.cons e1 t1 r1)
          (zeroColsLoop refEdges.length edgeId st))
      have hem : edgeId ∉ allColsF (.cons e1 t1 r1) :=
        (List.nodup_cons.mp hndF).1
      have c1 := BootInv_comp ntips tr r [] [edgeId]
        (allColsF (.cons e1 t1 r1)) (edgeId :: intColsF (.cons e1 t1 r1))
        st _ _ hz hf (by simp)
      have c2 := BootInv_comp ntips tr r
        ([] ++ allColsF (.cons e1 t1 r1))
        ([edgeId] ++ (edgeId :: intColsF (.cons e1 t1 r1)))
        [edgeId] [] st _ _ c1 hh ?_
      · refine BootInv_congr ntips tr r _ _ _ _ st _ ?_ ?_ c2
        · simp only [List.nil_append]
          exact List.perm_append_singleton edgeId _
        · intro j
          have hlen : (GForest.length (GForest.cons e1 t1 r1) == 0) = false := by
            simp [GForest.length]
          simp only [intColsN, hlen, Bool.false_eq_true, if_false,
            List.mem_append, List.mem_cons, List.not_mem_nil, or_false,
            List.mem_singleton, false_or]
          tauto
      · intro j hj
        simp only [List.nil_append] at hj
        constructor
        · simp only [List.mem_singleton]
          intro hje
          exact hem (hje ▸ hj)
        · simp

/-- The full effect of the per-child loop `bootChildren` on a fixed
reference row, provided the visited bootstrap-edge ids are distinct. -/
theorem bootF_inv (refEdges : List (GEdge × GNode)) (ntips tr : ℕ) (r : ℕ)
    (hr : r < refEdges.length)
    (htr : NumTipsRightVal (refEdges.get ⟨r, hr⟩).1 = tr) :
    ∀ (parentId : Int) (f : GForest) (st : DP),
    (parentId :: allColsF f).Nodup →
    BootInv ntips tr r (allColsF f) (parentId :: intColsF f) st
      (bootChildren refEdges ntips parentId f st)
  | parentId, .nil, st, hnd => BootInv_refl ntips tr r [parentId] st
  | parentId, .cons e t rest, st, hnd => by
      obtain ⟨hpm, hApp⟩ := List.nodup_cons.mp hnd
      obtain ⟨hndN, hndR0, hdisj⟩ := List.nodup_append.mp hApp
      have hpmL : parentId ∉ allColsN e.eid t := fun h =>
        hpm (List.mem_append.mpr (Or.inl h))
      have hpmR : parentId ∉ allColsF rest := fun h =>
        hpm (List.mem_append.mpr (Or.inr h))
      have h1 := bootN_inv refEdges ntips tr r hr htr e.eid t st hndN
      have h2 := BootInv_add ntips tr r refEdges.length parentId e.eid
        (update_i_c_post_order_boot_tree refEdges ntips e.eid t st)
      have h3 := bootF_inv refEdges ntips tr r hr htr parentId rest
        (addColsLoop refEdges.length parentId e.eid
          (update_i_c_post_order_boot_tree refEdges ntips e.eid t st))
        (List.nodup_cons.mpr ⟨hpmR, hndR0⟩)
      have c1 := BootInv_comp ntips tr r
        (allColsN e.eid t) (intColsN e.eid t) [] [parentId]
        st _ _ h1 h2 ?_
      · have c2 := BootInv_comp ntips tr r
          (allColsN e.eid t ++ []) (intColsN e.eid t ++ [parentId])
          (allColsF rest) (parentId :: intColsF rest)
          st _ _ c1 h3 ?_
        · refine BootInv_congr ntips tr r _ _ _ _ st _ ?_ ?_ c2
          · simp [allColsF]
          · intro j
            simp only [intColsF, List.mem_append, List.mem_cons,
              List.mem_singleton]
            tauto
        · intro j hj
          simp only [List.append_nil] at hj
          refine ⟨fun hc => hdisj hj hc, ?_⟩
          simp only [List.mem_cons]
          rintro (rfl | hc)
          · exact hpmL hj
          · exact hdisj hj (intColsF_subset rest j hc)
      · intro j hj
        refine ⟨by simp, ?_⟩
        simp only [List.mem_singleton]
        rintro rfl
        exact hpmL hj
end

/-- All bootstrap-edge ids visited by the whole bootstrap pass. -/
def rootColsA (root : GNode) : List Int :=
  root.ch.toList.flatMap (fun p => allColsN p.1.eid p.2)

/-- All bootstrap-edge ids whose `I`/`C` columns the whole pass writes. -/
def rootColsW (root : GNode) : List Int :=
  root.ch.toList.flatMap (fun p => intColsN p.1.eid p.2)

/-- Effect of the root loop of the bootstrap pass on a fixed reference
row. -/
theorem bootList_inv (refEdges : List (GEdge × GNode)) (ntips tr : ℕ)
    (r : ℕ) (hr : r < refEdges.length)
    (htr : NumTipsRightVal (refEdges.get ⟨r, hr⟩).1 = tr) :
    ∀ (l : List (GEdge × GNode)) (st : DP),
    (l.flatMap (fun p => allColsN p.1.eid p.2)).Nodup →
    BootInv ntips tr r (l.flatMap (fun p => allColsN p.1.eid p.2))
      (l.flatMap (fun p => intColsN p.1.eid p.2)) st
      (l.foldl (fun st p =>
        update_i_c_post_order_boot_tree refEdges ntips p.1.eid p.2 st) st)
  | [], st, _ => BootInv_refl ntips tr r [] st
  | p :: tl, st, hnd => by
      rw [List.flatMap_cons] at hnd
      obtain ⟨hndN, hndT, hdisj⟩ := List.nodup_append.mp hnd
      have h1 := bootN_inv refEdges ntips tr r hr htr p.1.eid p.2 st hndN
      have h2 := bootList_inv refEdges ntips tr r hr htr tl
        (update_i_c_post_order_boot_tree refEdges ntips p.1.eid p.2 st) hndT
      have c := BootInv_comp ntips tr r
        (allColsN p.1.eid p.2) (intColsN p.1.eid p.2)
        (tl.flatMap (fun q => allColsN q.1.eid q.2))
        (tl.flatMap (fun q => intColsN q.1.eid q.2)) st _ _ h1 h2 ?_
      · rw [List.flatMap_cons, List.flatMap_cons]
        exact c
      · intro j hj
        refine ⟨fun hc => hdisj hj hc, fun hc => hdisj hj ?_⟩
        rw [List.mem_flatMap] at hc ⊢
        obtain ⟨q, hq1, hq2⟩ := hc
        exact ⟨q, hq1, intColsN_subset q.1.eid q.2 j hq2⟩

/-- Effect of `Update_all_i_c_post_order_boot_tree` (the DP part) on a
fixed reference row. -/
theorem updateAll_inv (refEdges : List (GEdge × GNode)) (ntips tr : ℕ)
    (r : ℕ) (hr : r < refEdges.length)
    (htr : NumTipsRightVal (refEdges.get ⟨r, hr⟩).1 = tr)
    (bootRoot : GNode) (st : DP) (hnd : (rootColsA bootRoot).Nodup) :
    BootInv ntips tr r (rootColsA bootRoot) (rootColsW bootRoot) st
      (Update_all_i_c_post_order_boot_tree refEdges ntips bootRoot st).1 :=
  bootList_inv refEdges ntips tr r hr htr bootRoot.ch.toList st hnd

/-- `checkMinDist` succeeds exactly when every terminal reference edge has
minimum distance 0 (looked up at the edge's id). -/
theorem checkMinDist_ok_iff (st : DP) : ∀ l : List (GEdge × GNode),
    checkMinDist st l = .ok () ↔
      ∀ p ∈ l, p.2.ch.length = 0 → st.md p.1.eid = 0
  | [] => by simp [checkMinDist]
  | (e, t) :: rest => by
      rw [checkMinDist, if_neg (by omega)]
      by_cases hc : (t.ch.length == 0 && st.md e.eid != 0) = true
      · rw [if_pos hc]
        simp only [Bool.and_eq_true, beq_iff_eq, bne_iff_ne] at hc
        constructor
        · intro h
          exact absurd h (by simp)
        · intro h
          exact absurd (h (e, t) (List.mem_cons_self _ _) hc.1) hc.2
      · rw [if_neg hc]
        rw [checkMinDist_ok_iff st rest]
        simp only [Bool.and_eq_true, beq_iff_eq, bne_iff_ne, not_and] at hc
        constructor
        · intro h p hp htip
          rcases List.mem_cons.mp hp with rfl | hp
          · by_contra hne
            exact hc htip hne
          · exact h p hp htip
        · intro h p hp htip
          exact h p (List.mem_cons_of_mem _ hp) htip

/-- Exact value of the folded `uint16` Hamming distance when no wrap-around
occurs. -/
theorem fold16_exact (a c i ntips : ℕ) (ha : a < 65536) (h1 : i ≤ a + c)
    (h2 : a + c < 65536) (h3 : a + c - i ≤ ntips) (h4 : ntips < 65536) :
    fold16 ntips (sub16 (add16 (w16 a) c) i) =
      min (a + c - i) (ntips - (a + c - i)) := by
  unfold fold16 sub16 add16 w16
  split_ifs <;> omega

/-- The folded distance of a raw distance 0 is 0. -/
theorem fold16_zero (n : ℕ) : fold16 n 0 = 0 := by
  unfold fold16
  simp

/-- A seeded matching-tip entry folds to distance exactly 0. -/
theorem fold16_seeded (n : ℕ) : fold16 n (sub16 (add16 (w16 1) 0) 1) = 0 := by
  have h : sub16 (add16 (w16 1) 0) 1 = 0 := by decide
  rw [h]
  exact fold16_zero n

/-- **C4.** During the bootstrap-side post-order pass, for every reference
edge (row `r`) and visited bootstrap edge (column `j`), the stored Hamming
entry equals `min(H, ntips - H)` with `H = tipsRight(r) + C[r][j] - I[r][j]`
in exact integer arithmetic (under the no-overflow ranges the algorithm
maintains), the per-row minimum distance is the fold by `min` of all these
entries into the incoming minimum, and on any improvement the minimizing
bootstrap-edge id is recorded in `min_dist_edge`. -/
theorem boot_ham_min_dist_formula
    (refEdges : List (GEdge × GNode)) (ntips tr : ℕ) (edgeId : Int)
    (t : GNode) (st stN : DP) (r : ℕ) (hr : r < refEdges.length)
    (hstN : stN = update_i_c_post_order_boot_tree refEdges ntips edgeId t st)
    (htr : NumTipsRightVal (refEdges.get ⟨r, hr⟩).1 = tr)
    (hnd : (allColsN edgeId t).Nodup)
    (j : Int) (hj : j ∈ allColsN edgeId t)
    (h1 : stN.imat (↑r) j ≤ tr + stN.cmat (↑r) j)
    (h2 : tr + stN.cmat (↑r) j < 65536)
    (h3 : tr + stN.cmat (↑r) j - stN.imat (↑r) j ≤ ntips)
    (h4 : ntips < 65536) :
    stN.ham (↑r) j =
      min (tr + stN.cmat (↑r) j - stN.imat (↑r) j)
        (ntips - (tr + stN.cmat (↑r) j - stN.imat (↑r) j)) ∧
    stN.md (↑r) =
      ((allColsN edgeId t).map (fun c => stN.ham (↑r) c)).foldl min
        (st.md (↑r)) ∧
    (stN.md (↑r) < st.md (↑r) →
      stN.mde (↑r) ∈ allColsN edgeId t ∧
      stN.ham (↑r) (stN.mde (↑r)) = stN.md (↑r)) := by
  subst hstN
  obtain ⟨i1, i2, i3, i4, i5, i6⟩ :=
    bootN_inv refEdges ntips tr r hr htr edgeId t st hnd
  refine ⟨?_, i4, i5⟩
  rw [i3 j hj]
  exact fold16_exact tr _ _ ntips (by omega) h1 h2 h3 h4

/-- Concrete reference edge list for the bootstrap-pass witnesses: one
terminal edge with id 0 whose right side holds exactly one tip. -/
def c4refEdges : List (GEdge × GNode) :=
  [({ NewEdgeE with eid := 0, bitset := some [true, false] },
    GNode.node "A" GForest.nil)]

/-- Concrete initial DP state for the bootstrap-pass witnesses, seeded as
the reference pass leaves it for matching tips. -/
def c4st : DP :=
  { imat := fun r c => if r = 0 ∧ c = 0 then 1 else 0
    cmat := fun _ _ => 0
    ham := fun _ _ => 7
    md := fun _ => 2
    mde := fun _ => -1 }

/-- Witness for C4: on a concrete one-edge comparison all hypotheses hold
and the computed Hamming entry and minimum distance are both 0. -/
theorem boot_ham_min_dist_formula_witness :
    (update_i_c_post_order_boot_tree c4refEdges 2 0
      (GNode.node "A" GForest.nil) c4st).ham (↑(0 : ℕ)) 0 = 0 ∧
    (update_i_c_post_order_boot_tree c4refEdges 2 0
      (GNode.node "A" GForest.nil) c4st).md (↑(0 : ℕ)) = 0 := by
  have h := boot_ham_min_dist_formula c4refEdges 2 1 0
    (GNode.node "A" GForest.nil) c4st
    (update_i_c_post_order_boot_tree c4refEdges 2 0
      (GNode.node "A" GForest.nil) c4st)
    0 (by decide) rfl (by decide) (by decide) 0 (by decide)
    (by decide) (by decide) (by decide) (by decide)
  obtain ⟨ha, hb, _⟩ := h
  constructor
  · rw [ha]
    decide
  · rw [hb]
    decide

/-- **C3.** In a valid comparison — every terminal reference edge carries
id equal to its row, one right-side tip, and a seeded matching terminal
bootstrap column that the bootstrap pass never rewrites — after
`Update_all_i_c_post_order_boot_tree` every terminal reference edge has
minimum transfer distance exactly 0 and the function returns ok; and for
any state in which some terminal reference edge keeps a nonzero minimum
distance, the final check returns a (fatal) error rather than a warning or
a silent correction. -/
theorem update_all_boot_tip_distance_zero
    (refEdges : List (GEdge × GNode)) (ntips : ℕ) (bootRoot : GNode)
    (st0 : DP) (hnd : (rootColsA bootRoot).Nodup)
    (hmatch : ∀ (q : ℕ) (p : GEdge × GNode), refEdges.get? q = some p →
      p.2.ch.length = 0 →
      p.1.eid = (q : Int) ∧
      ∃ j ∈ rootColsA bootRoot, j ∉ rootColsW bootRoot ∧
        st0.imat (↑q) j = 1 ∧ st0.cmat (↑q) j = 0 ∧
        NumTipsRightVal p.1 = 1) :
    (∀ (q : ℕ) (p : GEdge × GNode), refEdges.get? q = some p →
      p.2.ch.length = 0 →
      (Update_all_i_c_post_order_boot_tree refEdges ntips bootRoot
        st0).1.md (↑q) = 0) ∧
    (Update_all_i_c_post_order_boot_tree refEdges ntips bootRoot st0).2 =
      .ok () ∧
    (∀ st' : DP,
      (∃ p ∈ refEdges, p.2.ch.length = 0 ∧ st'.md p.1.eid ≠ 0) →
      ∃ msg, checkMinDist st' refEdges = .error msg) := by
  have hmain : ∀ (q : ℕ) (p : GEdge × GNode), refEdges.get? q = some p →
      p.2.ch.length = 0 →
      (Update_all_i_c_post_order_boot_tree refEdges ntips bootRoot
        st0).1.md (↑q) = 0 := by
    intro q p hq htip
    obtain ⟨hlt, hget⟩ := List.get?_eq_some.mp hq
    obtain ⟨heid, j, hjA, hjW, hi, hc, hnum⟩ := hmatch q p hq htip
    have htr : NumTipsRightVal (refEdges.get ⟨q, hlt⟩).1 = 1 := by
      rw [hget]
      exact hnum
    obtain ⟨i1, i2, i3, i4, i5, i6⟩ :=
      updateAll_inv refEdges ntips 1 q hlt htr bootRoot st0 hnd
    have hicF := i1 j hjW (↑q)
    have hham : (Update_all_i_c_post_order_boot_tree refEdges ntips bootRoot
        st0).1.ham (↑q) j = 0 := by
      rw [i3 j hjA, hicF.1, hicF.2, hi, hc]
      exact fold16_seeded ntips
    have hle : (Update_all_i_c_post_order_boot_tree refEdges ntips bootRoot
        st0).1.md (↑q) ≤ 0 := by
      rw [i4]
      refine foldl_min_le_mem _ _ _ ?_
      rw [List.mem_map]
      exact ⟨j, hjA, hham⟩
    omega
  refine ⟨hmain, ?_, ?_⟩
  · show checkMinDist
      (Update_all_i_c_post_order_boot_tree refEdges ntips bootRoot st0).1
      refEdges = .ok ()
    rw [checkMinDist_ok_iff]
    intro p hp htip
    obtain ⟨⟨q, hql⟩, hget⟩ := List.mem_iff_get.mp hp
    have hq : refEdges.get? q = some p := List.get?_eq_some.mpr ⟨hql, hget⟩
    rw [(hmatch q p hq htip).1]
    exact hmain q p hq htip
  · rintro st' ⟨p, hp, htip, hne⟩
    rcases checkMinDist_ok_or_tip_error st' refEdges with hok | ⟨d, herr⟩
    · exact absurd ((checkMinDist_ok_iff st' refEdges).mp hok p hp htip) hne
    · exact ⟨_, herr⟩

/-- Concrete two-tip reference edge list for the C3 witness. -/
def c3refEdges : List (GEdge × GNode) :=
  [({ NewEdgeE with eid := 0, bitset := some [true, false] },
    GNode.node "A" GForest.nil),
   ({ NewEdgeE with eid := 1, bitset := some [false, true] },
    GNode.node "B" GForest.nil)]

/-- Concrete two-tip bootstrap tree for the C3 witness. -/
def c3boot : GNode :=
  GNode.node "R"
    (.cons { NewEdgeE with eid := 0 } (.node "A" .nil)
      (.cons { NewEdgeE with eid := 1 } (.node "B" .nil) .nil))

/-- Concrete seeded DP state for the C3 witness (as the reference pass
leaves it for two matching tips). -/
def c3st : DP :=
  { imat := fun r c => if (r = 0 ∧ c = 0) ∨ (r = 1 ∧ c = 1) then 1 else 0
    cmat := fun r c => if (r = 0 ∧ c = 1) ∨ (r = 1 ∧ c = 0) then 1 else 0
    ham := fun _ _ => 7
    md := fun _ => 2
    mde := fun _ => -1 }

/-- Witness for C3: on the concrete two-tip comparison the hypotheses hold,
the first terminal reference edge ends at minimum distance 0, and the
function returns ok. -/
theorem update_all_boot_tip_distance_zero_witness :
    (Update_all_i_c_post_order_boot_tree c3refEdges 2 c3boot c3st).1.md
      (↑(0 : ℕ)) = 0 ∧
    (Update_all_i_c_post_order_boot_tree c3refEdges 2 c3boot c3st).2 =
      .ok () := by
  have hm : ∀ (q : ℕ) (p : GEdge × GNode), c3refEdges.get? q = some p →
      p.2.ch.length = 0 →
      p.1.eid = (q : Int) ∧
      ∃ j ∈ rootColsA c3boot, j ∉ rootColsW c3boot ∧
        c3st.imat (↑q) j = 1 ∧ c3st.cmat (↑q) j = 0 ∧
        NumTipsRightVal p.1 = 1 := by
    intro q p hq htip
    match q with
    | 0 =>
        injection hq with hq
        subst hq
        exact ⟨by decide, 0, by decide, by decide, by decide, by decide,
          by decide⟩
    | 1 =>
        injection hq with hq
        subst hq
        exact ⟨by decide, 1, by decide, by decide, by decide, by decide,
          by decide⟩
    | (n + 2) =>
        exact absurd hq (by simp [c3refEdges])
  have h := update_all_boot_tip_distance_zero c3refEdges 2 c3boot c3st
    (by decide) hm
  exact ⟨h.1 0 ({ NewEdgeE with eid := 0, bitset := some [true, false] },
    GNode.node "A" GForest.nil) rfl (by decide), h.2.1⟩

/-- Modelled from the spec: `Edge.TopoDepth` (declared in a source file not
present under src) is the number of tips on the smaller side of the edge's
bipartition, `min(popcount(bitset), tipcount - popcount(bitset))`, with an
error when the bitset is not initialized. -/
def TopoDepth (e : GEdge) : Except String ℕ :=
  match e.bitset with
  | none => .error "Subtree tips bitset is nil"
  | some bs => .ok (min (popcount bs) (bs.length - popcount bs))

/-- `speciesToMove`: walk the bits of the reference edge's bitset, collect
the positions where the two bitsets differ (`diff`) and agree (`equ`), and
return the smaller list, which must have exactly the given length (an
uninitialized bitset is read as empty, length 0). -/
def speciesToMove (e be : GEdge) (dist : ℕ) : Except String (List ℕ) :=
  let ebs := e.bitset.getD []
  let bebs := be.bitset.getD []
  let diff := (List.range ebs.length).filter
    (fun i => testBit ebs i != testBit bebs i)
  let equ := (List.range ebs.length).filter
    (fun i => testBit ebs i == testBit bebs i)
  if diff.length < equ.length then
    if diff.length ≠ dist then
      .error ("Length of moved species array (" ++ toString diff.length ++
        ") is not equal to the minimum distance found (" ++ toString dist ++ ")")
    else .ok diff
  else if equ.length ≠ dist then
    .error ("Length of moved species array (" ++ toString equ.length ++
      ") is not equal to the minimum distance found (" ++ toString dist ++ ")")
  else .ok equ

/-- The per-tree reinitialization loop of `ComputeValue`:
`min_dist[i] = uint16(len(tips))` and `min_dist_edge[i] = -1` for every
reference edge index (the matrix reallocation only grows zeroed capacity;
every cell the passes read is written first, so capacity is not carried). -/
def initMinDist (nE : ℕ) (ntips : ℕ) (st : DP) : DP :=
  (List.range nE).foldl (fun st i =>
    { st with md := upd1 st.md (↑i) (w16 ntips), mde := updE st.mde (↑i) (-1) }) st

mutual
/-- `for i, e := range bootEdges { e.SetId(i) }`: number the edges of the
bootstrap tree with their positions in the `Edges()` pre-order, threading
the next free id. -/
def setEdgeIdsN (n : ℕ) : GNode → GNode × ℕ
  | .node nm f =>
      match setEdgeIdsF n f with
      | (f2, n2) => (.node nm f2, n2)

/-- Forest part of `setEdgeIdsN`: the edge gets the current id, then its
subtree, then the remaining edges, matching the `Edges()` order. -/
def setEdgeIdsF (n : ℕ) : GForest → GForest × ℕ
  | .nil => (.nil, n)
  | .cons e t rest =>
      match setEdgeIdsN (n + 1) t with
      | (t2, n1) =>
          match setEdgeIdsF n1 rest with
          | (rest2, n2) => (.cons { e with eid := (n : Int) } t2 rest2, n2)
end

/-- One stream item of the bootstrap-tree channel (`tree.Trees`): the tree,
its id, and the generation error, if any. -/
structure TreesItem where
  tree : GNode
  tid : Int
  err : Option String
deriving Repr, DecidableEq

/-- The observable state of `ComputeValue`: the supporter (its processed
counter and stop flag), the persistent DP arrays, the per-tip
moved-species counters, the last recorded error, and the messages sent to
the value, species and taxa channels (channel sends accumulate in order). -/
structure CVState where
  sup : BoosterSupporter
  dp : DP
  ms : ℕ → ℕ
  err : Option String
  emissions : List (ℕ × ℕ)
  species : List (ℕ × ℚ)
  tax : List (List (Option (List ℕ)))

/-- The per-reference-edge loop of `ComputeValue` for one bootstrap tree:
tip edges get a fresh empty taxa list and emit nothing; internal edges read
`min_dist` at their position and, when any moved-species output is
requested, compute the topological depth (a failure aborts the whole
call), look up the minimizing bootstrap edge, and classify the moved
species (a failure also aborts); the transfer value is then emitted.
`norm` divides by `td - 1` (Go float, here `ℚ` with division by zero
giving 0 instead of infinity — the branch is cutoff-guarded in both). -/
def cvEdgeLoop (sup : BoosterSupporter) (bootEdges : List GEdge) (dp : DP) :
    List (ℕ × (GEdge × GNode)) → (ℕ → ℕ) → ℕ →
    List (Option (List ℕ)) → List (ℕ × ℕ) →
    Except String ((ℕ → ℕ) × ℕ × List (Option (List ℕ)) × List (ℕ × ℕ))
  | [], ms, nb, tax, em => .ok (ms, nb, tax, em)
  | (i, (e, tnode)) :: rest, ms, nb, tax, em =>
      if tnode.ch.length == 0 then
        cvEdgeLoop sup bootEdges dp rest ms nb (tax ++ [some []]) em
      else
        let v := dp.md (↑i)
        if sup.computeMovedSpecies || sup.computeTransferPerBranches ||
            sup.computeHighTransferPerBranches then
          match TopoDepth e with
          | .error s => .error s
          | .ok td =>
              let be := bootEdges.getD (dp.mde (↑i)).toNat NewEdgeE
              let norm : ℚ := (v : ℚ) / ((td : ℚ) - 1)
              let mindepth : Int := Int.ceil (1 / sup.movedSpeciesCutoff + 1)
              match speciesToMove e be v with
              | .error s => .error s
              | .ok sm =>
                  let msnb := if sup.computeMovedSpecies ∧
                      norm ≤ sup.movedSpeciesCutoff ∧ (td : Int) ≥ mindepth
                    then (fun sp => ms sp + sm.count sp, nb + 1) else (ms, nb)
                  let tax1 := if sup.computeTransferPerBranches ||
                      sup.computeHighTransferPerBranches
                    then tax ++ [some sm] else tax ++ [none]
                  cvEdgeLoop sup bootEdges dp rest msnb.1 msnb.2 tax1
                    (em ++ [(v, i)])
        else
          cvEdgeLoop sup bootEdges dp rest ms nb (tax ++ [none]) (em ++ [(v, i)])

/-- The stream loop of `ComputeValue`.  An error item is logged, recorded
into `err` and skipped (the stream keeps draining).  Otherwise the
bootstrap tree is reindexed and compared against the reference tip index:
on mismatch the comparison error is recorded and the tree skipped;
otherwise `err` holds nil, the DP arrays are reinitialized, the bootstrap
edges are renumbered, both post-order passes run (the bootstrap pass error
is discarded), the per-edge loop runs (whose internal failures abort the
whole call), the per-tree channel sends happen, the processed counter is
bumped, and a set stop flag breaks the loop.  `treeV.Tree.Delete()` only
frees arena memory and is not carried.  Returns the final state and the
returned error. -/
def computeValueLoop (refTipIndex : List (String × ℕ)) (tipsLen : ℕ)
    (refRoot : GNode) (refEdges : List (GEdge × GNode)) :
    List TreesItem → CVState → CVState × Option String
  | [], st => (st, st.err)
  | item :: rest, st =>
      match item.err with
      | some e =>
          computeValueLoop refTipIndex tipsLen refRoot refEdges rest
            { st with err := some e }
      | none =>
          match CompareTipIndexes refTipIndex (ReinitIndexesN item.tree).1 with
          | .error e =>
              computeValueLoop refTipIndex tipsLen refRoot refEdges rest
                { st with err := some e }
          | .ok () =>
              let boot2 := (ReinitIndexesN item.tree).2
              let dp0 := initMinDist refEdges.length tipsLen st.dp
              let bootR := (setEdgeIdsN 0 boot2).1
              let bootPairs := edgesF bootR.ch
              let dp1 := Update_all_i_c_post_order_ref_tree refRoot bootPairs dp0
              let dp2 := (Update_all_i_c_post_order_boot_tree refEdges tipsLen
                bootR dp1).1
              match cvEdgeLoop st.sup (bootPairs.map Prod.fst) dp2
                  refEdges.enum st.ms 0 [] [] with
              | .error er => (st, some er)
              | .ok (ms1, nb, tax1, em1) =>
                  let species1 := if st.sup.computeMovedSpecies then
                    (List.range tipsLen).map
                      (fun sp => (sp, (ms1 sp : ℚ) / (nb : ℚ)))
                    else []
                  let ms2 := if st.sup.computeMovedSpecies then
                    (fun _ => 0) else ms1
                  let tax2 := if st.sup.computeTransferPerBranches ||
                      st.sup.computeHighTransferPerBranches
                    then st.tax ++ [tax1] else st.tax
                  let st2 : CVState :=
                    { sup := { st.sup with
                        currentTree := st.sup.currentTree + 1 }
                      dp := dp2
                      ms := ms2
                      err := none
                      emissions := st.emissions ++ em1
                      species := st.species ++ species1
                      tax := tax2 }
                  if st.sup.stop then (st2, st2.err)
                  else computeValueLoop refTipIndex tipsLen refRoot refEdges
                    rest st2

/-- `BoosterSupporter.ComputeValue`: read the reference tips and edges
(the Go code dereferences the root, hence `none` on a rootless reference
tree), start from zeroed DP arrays and counters, and drain the stream. -/
def ComputeValueGo (sup : BoosterSupporter) (refTree : GTree)
    (items : List TreesItem) : Option (CVState × Option String) :=
  match refTree.root with
  | none => none
  | some refRoot =>
      let tipsLen := (tipsN false refRoot).length
      let refEdges := edgesF refRoot.ch
      some (computeValueLoop refTree.tipIndex tipsLen refRoot refEdges items
        { sup := sup
          dp := { imat := fun _ _ => 0, cmat := fun _ _ => 0,
                  ham := fun _ _ => 0, md := fun _ => 0, mde := fun _ => 0 }
          ms := fun _ => 0
          err := none
          emissions := []
          species := []
          tax := [] })

/-- **C6.** An error item of the bootstrap stream is recorded and skipped:
the processed-tree counter, the per-edge value emissions, the
species-moved emissions and the taxa emissions are all unchanged, and the
loop continues with the remaining items of the stream (the error does not
halt the draining). -/
theorem computeValue_error_item_skipped
    (refTipIndex : List (String × ℕ)) (tipsLen : ℕ) (refRoot : GNode)
    (refEdges : List (GEdge × GNode)) (item : TreesItem) (msg : String)
    (herr : item.err = some msg) (rest : List TreesItem) (st : CVState) :
    computeValueLoop refTipIndex tipsLen refRoot refEdges (item :: rest) st =
      computeValueLoop refTipIndex tipsLen refRoot refEdges rest
        { st with err := some msg } ∧
    ({ st with err := some msg } : CVState).sup.currentTree =
      st.sup.currentTree ∧
    ({ st with err := some msg } : CVState).emissions = st.emissions ∧
    ({ st with err := some msg } : CVState).species = st.species ∧
    ({ st with err := some msg } : CVState).tax = st.tax := by
  obtain ⟨tr, tid, ierr⟩ := item
  have h2 : ierr = some msg := herr
  subst h2
  exact ⟨rfl, rfl, rfl, rfl, rfl⟩

/-- Concrete state for the C6 witness: fresh supporter, zeroed arrays. -/
def c6st : CVState :=
  { sup := { currentTree := 0, stop := false, silent := true
             computeMovedSpecies := false, computeTransferPerBranches := false
             computeHighTransferPerBranches := false
             movedSpeciesCutoff := 1, normalizeByExpected := false }
    dp := { imat := fun _ _ => 0, cmat := fun _ _ => 0, ham := fun _ _ => 0,
            md := fun _ => 0, mde := fun _ => 0 }
    ms := fun _ => 0
    err := none
    emissions := []
    species := []
    tax := [] }

/-- Witness for C6: a concrete error item is skipped with all outputs
unchanged and the loop continues with the empty remainder. -/
theorem computeValue_error_item_skipped_witness :
    ((⟨GNode.node "X" GForest.nil, 0, some "bad replicate"⟩ : TreesItem).err =
      some "bad replicate") ∧
    computeValueLoop [] 0 (GNode.node "X" GForest.nil) []
        [⟨GNode.node "X" GForest.nil, 0, some "bad replicate"⟩] c6st =
      computeValueLoop [] 0 (GNode.node "X" GForest.nil) [] []
        { c6st with err := some "bad replicate" } := by
  have h := computeValue_error_item_skipped [] 0 (GNode.node "X" GForest.nil)
    [] ⟨GNode.node "X" GForest.nil, 0, some "bad replicate"⟩ "bad replicate"
    rfl [] c6st
  exact ⟨rfl, h.1⟩

/-- Concrete reference tree for C1: tips `A`, `B`, `C`, edge ids equal to
their positions, bitsets as `UpdateBitSet` leaves them. -/
def c1refRoot : GNode :=
  .node "R"
    (.cons { NewEdgeE with eid := 0, bitset := some [true, false, false] }
      (.node "A" .nil)
      (.cons { NewEdgeE with eid := 1, bitset := some [false, true, true] }
        (.node "N"
          (.cons { NewEdgeE with eid := 2, bitset := some [false, true, false] }
            (.node "B" .nil)
            (.cons { NewEdgeE with eid := 3, bitset := some [false, false, true] }
              (.node "C" .nil) .nil)))
        .nil))

/-- Concrete reference tree (tree level) for C1. -/
def c1refTree : GTree :=
  { root := some c1refRoot, tipIndex := [("A", 0), ("B", 1), ("C", 2)] }

/-- A bootstrap item whose tip set `{A, B, D}` mismatches the reference. -/
def c1bad : TreesItem :=
  ⟨.node "R2"
    (.cons NewEdgeE (.node "A" .nil)
      (.cons NewEdgeE
        (.node "M"
          (.cons NewEdgeE (.node "B" .nil)
            (.cons NewEdgeE (.node "D" .nil) .nil)))
        .nil)),
    0, none⟩

/-- A bootstrap item with the same tip set `{A, B, C}` as the reference. -/
def c1good : TreesItem :=
  ⟨.node "R3"
    (.cons NewEdgeE (.node "A" .nil)
      (.cons NewEdgeE
        (.node "M"
          (.cons NewEdgeE (.node "B" .nil)
            (.cons NewEdgeE (.node "C" .nil) .nil)))
        .nil)),
    1, none⟩

/-- Concrete supporter for C1: no optional outputs, no stop. -/
def c1sup : BoosterSupporter :=
  { currentTree := 0, stop := false, silent := true
    computeMovedSpecies := false, computeTransferPerBranches := false
    computeHighTransferPerBranches := false
    movedSpeciesCutoff := 1, normalizeByExpected := false }


/-- Counterexample to C1: a stream holding a mismatched bootstrap tree
followed by a well-matched one.  `ComputeValue` does not stop at the
mismatch: it skips that tree, drains the rest of the stream, counts the
later tree, and even returns a nil error, because the later successful
comparison overwrites the recorded mismatch error. -/
theorem computeValue_mismatch_not_fatal_cex :
    ((ComputeValueGo c1sup c1refTree [c1bad, c1good]).map
      (fun r => (r.2, r.1.sup.currentTree))) = some (none, 1) := by
  decide

/-- **C1 (amended).** A bootstrap tree whose tip index does not match the
reference is not fatal: `ComputeValue` records the comparison error,
skips the tree — no counter bump, no emissions — and keeps draining the
stream; the recorded error is returned at the end only if no later item
overwrites it. -/
theorem computeValue_mismatch_skips_and_continues
    (refTipIndex : List (String × ℕ)) (tipsLen : ℕ) (refRoot : GNode)
    (refEdges : List (GEdge × GNode)) (item : TreesItem) (msg : String)
    (rest : List TreesItem) (st : CVState)
    (hok : item.err = none)
    (hcmp : CompareTipIndexes refTipIndex (ReinitIndexesN item.tree).1 =
      .error msg) :
    computeValueLoop refTipIndex tipsLen refRoot refEdges (item :: rest) st =
      computeValueLoop refTipIndex tipsLen refRoot refEdges rest
        { st with err := some msg } ∧
    ({ st with err := some msg } : CVState).sup.currentTree =
      st.sup.currentTree ∧
    ({ st with err := some msg } : CVState).emissions = st.emissions ∧
    (∀ st' : CVState,
      computeValueLoop refTipIndex tipsLen refRoot refEdges [] st' =
        (st', st'.err)) := by
  obtain ⟨tr, tid, ierr⟩ := item
  have h2 : ierr = none := hok
  subst h2
  refine ⟨?_, rfl, rfl, fun st' => rfl⟩
  simp only [computeValueLoop]
  rw [hcmp]

/-- Witness for the amended C1: the concrete mismatched item is skipped
with the concrete comparison error recorded, and the loop goes on. -/
theorem computeValue_mismatch_skips_and_continues_witness :
    c1bad.err = none ∧
    CompareTipIndexes c1refTree.tipIndex (ReinitIndexesN c1bad.tree).1 =
      .error "Trees do not have the same tip names" ∧
    computeValueLoop c1refTree.tipIndex 3 c1refRoot (edgesF c1refRoot.ch)
        [c1bad, c1good] c6st =
      computeValueLoop c1refTree.tipIndex 3 c1refRoot (edgesF c1refRoot.ch)
        [c1good] { c6st with err := some "Trees do not have the same tip names" } := by
  have h := computeValue_mismatch_skips_and_continues c1refTree.tipIndex 3
    c1refRoot (edgesF c1refRoot.ch) c1bad
    "Trees do not have the same tip names" [c1good] c6st rfl (by decide)
  exact ⟨rfl, by decide, h.1⟩
